import Mathlib

/-!
Verification of the `span-map` library: a segment map that associates
possibly-overlapping spans over an ordered key domain with sets of values.

The embedding mirrors `src/bounds/left.rs`, `src/bounds/right.rs`,
`src/bounds.rs`, `src/span.rs` and `src/lib.rs`:

* `LeftBound` / `RightBound` are the edge markers with their same-side total
  orders (`LeftBound.cmp`) and the explicit cross-side comparison
  (`LeftBound.crossCmp`, `RightBound.crossCmpLeft`).
* `Span` is a pair of edges with the partial comparison `Span.pcmp`.
* The `SpanMap`'s `BTreeMap<LeftBound<K>, BTreeSet<V>>` is embedded as a
  strictly sorted association list `SMap K V`; `lastLE` models
  `range(..=bound).next_back()`, `insertKey`/`removeKey` model
  `BTreeMap::insert`/`remove`, and `ensureBoundary`, `applyFrom` (the
  `range_mut(span.left..)` loop with its break), `mergeAdjacentLeft` and
  `updateSetInSpan` follow `lib.rs` line by line.  `BTreeSet<V>` becomes
  `Finset V`.
-/

namespace SpanMap

/-- Model of `LeftBound<T>` from `src/bounds/left.rs`. -/
inductive LeftBound (K : Type) where
  | unbounded
  | included (v : K)
  | excluded (v : K)
deriving DecidableEq

/-- Model of `RightBound<T>` from `src/bounds/right.rs` (note the opposite tag order). -/
inductive RightBound (K : Type) where
  | excluded (v : K)
  | included (v : K)
  | unbounded
deriving DecidableEq

variable {K : Type} [LinearOrder K]

/-- Rust `Ord::cmp` for `LeftBound` (`src/bounds/left.rs`, lines 83-119). -/
def LeftBound.cmp : LeftBound K → LeftBound K → Ordering
  | .unbounded, .unbounded => .eq
  | .unbounded, _ => .lt
  | .included _, .unbounded => .gt
  | .included l, .included r => compare l r
  | .included l, .excluded r => if l = r then .lt else compare l r
  | .excluded _, .unbounded => .gt
  | .excluded l, .included r => if l = r then .gt else compare l r
  | .excluded l, .excluded r => compare l r

/-- Rust `Ord::cmp` for `RightBound` (`src/bounds/right.rs`, lines 98-134). -/
def RightBound.cmp : RightBound K → RightBound K → Ordering
  | .excluded l, .excluded r => compare l r
  | .excluded l, .included r => if l = r then .lt else compare l r
  | .excluded _, .unbounded => .lt
  | .included l, .excluded r => if l = r then .gt else compare l r
  | .included l, .included r => compare l r
  | .included _, .unbounded => .lt
  | .unbounded, .unbounded => .eq
  | .unbounded, _ => .gt

/-- Model of `impl PartialOrd<RightBound<T>> for LeftBound<T>` (`src/bounds.rs`,
lines 30-67).  For `T : Ord` the inner `l.partial_cmp(r)` is
`Some(l.cmp(r))`, embedded as `some (compare l r)`. -/
def LeftBound.crossCmp : LeftBound K → RightBound K → Option Ordering
  | .unbounded, _ => some .lt
  | .included l, .excluded r => if l = r then some .gt else some (compare l r)
  | .included l, .included r => some (compare l r)
  | .included _, .unbounded => some .lt
  | .excluded l, .excluded r => if l = r then some .gt else some (compare l r)
  | .excluded l, .included r => if l = r then some .gt else some (compare l r)
  | .excluded _, .unbounded => some .lt

/-- Model of `impl PartialOrd<LeftBound<T>> for RightBound<T>` (`src/bounds.rs`,
lines 69-77): the reversed left-vs-right comparison. -/
def RightBound.crossCmpLeft (r : RightBound K) (b : LeftBound K) : Option Ordering :=
  (LeftBound.crossCmp b r).map Ordering.swap

/-- Comparison `span.right < *b` as used in `update_set_in_span` (`src/lib.rs` line 149):
Rust's `PartialOrd::lt`, i.e. `partial_cmp == Some(Less)`. -/
def RightBound.ltLeft (r : RightBound K) (b : LeftBound K) : Bool :=
  decide (RightBound.crossCmpLeft r b = some Ordering.lt)

/-- Comparison `self.left > other.right` as used in `Span::partial_cmp`
(`src/span.rs` line 56): Rust's `PartialOrd::gt`. -/
def LeftBound.gtRight (l : LeftBound K) (r : RightBound K) : Bool :=
  decide (LeftBound.crossCmp l r = some Ordering.gt)

/-- Model of `RightBound::adjacent_left` (`src/bounds/right.rs`, lines 48-57). -/
def RightBound.adjacentLeft : RightBound K → Option (LeftBound K)
  | .unbounded => none
  | .included v => some (.excluded v)
  | .excluded v => some (.included v)

/-- Model of `Span<T>` from `src/span.rs`. -/
structure Span (K : Type) where
  left : LeftBound K
  right : RightBound K
deriving DecidableEq

/-- Model of `impl PartialOrd for Span<T>` (`src/span.rs`, lines 48-66). -/
def Span.pcmp (a b : Span K) : Option Ordering :=
  if RightBound.ltLeft a.right b.left then some .lt
  else if LeftBound.gtRight a.left b.right then some .gt
  else if a = b then some .eq
  else none

/-! Part: The segment map -/

/-- The `BTreeMap<LeftBound<K>, BTreeSet<V>>` inside `SpanMap`, as a
strictly sorted association list. -/
abbrev SMap (K V : Type) := List (LeftBound K × Finset V)

/-- Test `key <= bound` in the B-tree's key order: `cmp` is not `Greater`. -/
def LeftBound.ble (a b : LeftBound K) : Bool :=
  decide (LeftBound.cmp a b ≠ Ordering.gt)

/-- Test `key < bound` in the B-tree's key order. -/
def LeftBound.blt (a b : LeftBound K) : Bool :=
  decide (LeftBound.cmp a b = Ordering.lt)

variable {V : Type} [DecidableEq V]

/-- Model of `self.m.range(..=bound).next_back()`: the last entry whose key is `≤ b`. -/
def lastLE (m : SMap K V) (b : LeftBound K) : Option (LeftBound K × Finset V) :=
  match m with
  | [] => none
  | p :: rest =>
    if LeftBound.ble p.1 b then
      match lastLE rest b with
      | some q => some q
      | none => some p
    else lastLE rest b

/-- Model of `BTreeMap::insert`, keeping the list sorted and replacing an equal key. -/
def insertKey (m : SMap K V) (b : LeftBound K) (s : Finset V) : SMap K V :=
  match m with
  | [] => [(b, s)]
  | p :: rest =>
    match LeftBound.cmp b p.1 with
    | .lt => (b, s) :: p :: rest
    | .eq => (b, s) :: rest
    | .gt => p :: insertKey rest b s

/-- Model of `BTreeMap::remove` (keys are unique in a sorted map). -/
def removeKey (m : SMap K V) (b : LeftBound K) : SMap K V :=
  m.filter (fun p => decide (p.1 ≠ b))

/-- Model of `SpanMap::ensure_boundary` (`src/lib.rs`, lines 162-174). -/
def ensureBoundary (m : SMap K V) (b : LeftBound K) : SMap K V :=
  match lastLE m b with
  | some p => if p.1 = b then m else insertKey m b p.2
  | none => insertKey m b ∅

/-- Model of `SpanMap::merge_adjacent_left` (`src/lib.rs`, lines 180-195): look at the
last two entries with key `≤ bound`; if their sets are equal remove the
right one. -/
def mergeAdjacentLeft (m : SMap K V) (b : LeftBound K) : SMap K V :=
  match (m.filter (fun p => LeftBound.ble p.1 b)).reverse with
  | rp :: lp :: _ => if lp.2 = rp.2 then removeKey m rp.1 else m
  | _ => m

/-- The `for (b, set) in self.m.range_mut(span.left..)` loop body of
`update_set_in_span` (`src/lib.rs`, lines 148-153): apply `f` to each cell
until a key exceeds `right`, then break. -/
def applyFrom (right : RightBound K) (f : Finset V → Finset V) :
    SMap K V → SMap K V
  | [] => []
  | p :: rest =>
    if RightBound.ltLeft right p.1 then p :: rest
    else (p.1, f p.2) :: applyFrom right f rest

/-- Model of `SpanMap::update_set_in_span` (`src/lib.rs`, lines 137-159). -/
def updateSetInSpan (m : SMap K V) (sp : Span K) (f : Finset V → Finset V) :
    SMap K V :=
  let start := sp.left
  let m1 := ensureBoundary m start
  let e := sp.right.adjacentLeft
  let m2 := match e with
    | some b => ensureBoundary m1 b
    | none => m1
  let pre := m2.takeWhile (fun p => LeftBound.blt p.1 start)
  let suf := m2.dropWhile (fun p => LeftBound.blt p.1 start)
  let m3 := pre ++ applyFrom sp.right f suf
  let m4 := mergeAdjacentLeft m3 start
  match e with
  | some b => mergeAdjacentLeft m4 b
  | none => m4

/-- Model of `SpanMap::insert_span` (`src/lib.rs`, lines 124-128). -/
def insertSpan (m : SMap K V) (sp : Span K) (v : V) : SMap K V :=
  updateSetInSpan m sp (fun s => insert v s)

/-- Model of `SpanMap::remove_span` (`src/lib.rs`, lines 131-135). -/
def removeSpan (m : SMap K V) (sp : Span K) (v : V) : SMap K V :=
  updateSetInSpan m sp (fun s => s.erase v)

/-- Model of `SpanMap::new` (`src/lib.rs`, lines 77-81). -/
def newMap : SMap K V := [(.unbounded, ∅)]

/-- The internal lookup of `SpanMap::get` (`src/lib.rs`, lines 90-101)
before the `unwrap`: `none` models the panic case. -/
def getCell (m : SMap K V) (k : K) : Option (Finset V) :=
  (lastLE m (.included k)).map Prod.snd

/-- The set of values `SpanMap::get` yields at `k`. -/
def getValues (m : SMap K V) (k : K) : Finset V :=
  (getCell m k).getD ∅

/-- One public mutation: `insert` or `remove` over a span (any standard
range expression lowers to some `Span` via `Span::from_range`). -/
inductive Op (K V : Type) where
  | ins (sp : Span K) (v : V)
  | rem (sp : Span K) (v : V)
deriving DecidableEq

/-- Apply one public mutation. -/
def applyOp (m : SMap K V) : Op K V → SMap K V
  | .ins sp v => insertSpan m sp v
  | .rem sp v => removeSpan m sp v

/-- Run a sequence of public mutations on a freshly constructed map. -/
def runOps (ops : List (Op K V)) : SMap K V :=
  ops.foldl applyOp newMap

/-- Invariant 3 of the spec, §3: no two adjacent cells hold equal value
sets. -/
def canonicalB : SMap K V → Bool
  | [] => true
  | [_] => true
  | p :: q :: rest => decide (p.2 ≠ q.2) && canonicalB (q :: rest)

/-! Part: Spec-side membership of a key in a span -/

/-- The left edge lies at or before the point `k` (spec §4.1: `inclusive(v)`
sits at `v`, a left `exclusive(v)` at `v + ε`, left `unbounded` at `−∞`). -/
def LeftBound.atOrBeforeKey : LeftBound K → K → Bool
  | .unbounded, _ => true
  | .included l, k => decide (l ≤ k)
  | .excluded l, k => decide (l < k)

/-- The right edge lies at or after the point `k` (a right `exclusive(v)`
sits at `v − ε`, right `unbounded` at `+∞`). -/
def RightBound.atOrAfterKey : RightBound K → K → Bool
  | .unbounded, _ => true
  | .included r, k => decide (k ≤ r)
  | .excluded r, k => decide (k < r)

/-- Predicate: `k` is within the span (the spec's "range containing `k`"). -/
def Span.containsKey (sp : Span K) (k : K) : Bool :=
  sp.left.atOrBeforeKey k && sp.right.atOrAfterKey k

/-! Part: Positions on the extended key line

Every edge marker denotes a position on the key line extended with `−∞`,
`+∞` and infinitesimal offsets (spec §4.1).  We realize these positions in
`WithBot (WithTop (K ×ₗ ℤ))`: the second component is the ε-offset
(`-1` = just before, `0` = exactly at, `1` = just after).  All four
comparison functions of the source agree with the linear order on
positions, which is what makes the mixed-edge reasoning sound. -/

/-- The extended key line. -/
abbrev Pos (K : Type) := WithBot (WithTop (Lex (K × ℤ)))

/-- A finite position: key plus ε-offset. -/
def emb (v : K) (i : ℤ) : Pos K :=
  ((((toLex (v, i) : Lex (K × ℤ)) : WithTop (Lex (K × ℤ)))) : Pos K)

/-- The `+∞` position. -/
def topPos : Pos K := ((⊤ : WithTop (Lex (K × ℤ))) : Pos K)

/-- Position of a left edge. -/
def LeftBound.pos : LeftBound K → Pos K
  | .unbounded => ⊥
  | .included v => emb v 0
  | .excluded v => emb v 1

/-- Position of a right edge. -/
def RightBound.pos : RightBound K → Pos K
  | .excluded v => emb v (-1)
  | .included v => emb v 0
  | .unbounded => topPos

/-- Position of a key (point query). -/
def keyPos (k : K) : Pos K := emb k 0

theorem emb_lt_emb {v w : K} {i j : ℤ} :
    emb v i < emb w j ↔ v < w ∨ (v = w ∧ i < j) := by
  rw [emb, emb, WithBot.coe_lt_coe, WithTop.coe_lt_coe, Prod.Lex.lt_iff]

theorem emb_le_emb {v w : K} {i j : ℤ} :
    emb v i ≤ emb w j ↔ v < w ∨ (v = w ∧ i ≤ j) := by
  rw [emb, emb, WithBot.coe_le_coe, WithTop.coe_le_coe, Prod.Lex.le_iff]

theorem emb_inj {v w : K} {i j : ℤ} :
    emb v i = emb w j ↔ v = w ∧ i = j := by
  constructor
  · intro h
    rw [emb, emb] at h
    have h1 := WithBot.coe_injective h
    have h2 := WithTop.coe_injective h1
    have h3 : (v, i) = (w, j) := congrArg ofLex h2
    exact ⟨congrArg Prod.fst h3, congrArg Prod.snd h3⟩
  · rintro ⟨rfl, rfl⟩
    rfl

theorem bot_lt_emb (v : K) (i : ℤ) : (⊥ : Pos K) < emb v i :=
  WithBot.bot_lt_coe _

theorem emb_lt_topPos (v : K) (i : ℤ) : emb v i < topPos := by
  rw [emb, topPos, WithBot.coe_lt_coe]
  exact WithTop.coe_lt_top _

theorem emb_ne_bot (v : K) (i : ℤ) : emb v i ≠ (⊥ : Pos K) :=
  (bot_lt_emb v i).ne'

theorem emb_ne_topPos (v : K) (i : ℤ) : emb v i ≠ topPos :=
  (emb_lt_topPos v i).ne

theorem bot_lt_topPos : (⊥ : Pos K) < topPos :=
  WithBot.bot_lt_coe _

/-! Part: The comparison functions agree with positions -/

theorem cmp_lt_iff (a b : LeftBound K) :
    LeftBound.cmp a b = Ordering.lt ↔ a.pos < b.pos := by
  rcases a with _ | l | l <;> rcases b with _ | r | r <;>
    simp only [LeftBound.cmp, LeftBound.pos] <;>
    (try split_ifs with h) <;>
    simp_all [emb_lt_emb, bot_lt_emb, compare_lt_iff_lt, not_lt_bot]

theorem cmp_eq_iff (a b : LeftBound K) :
    LeftBound.cmp a b = Ordering.eq ↔ a = b := by
  rcases a with _ | l | l <;> rcases b with _ | r | r <;>
    simp only [LeftBound.cmp] <;>
    (try split_ifs with h) <;>
    simp_all [compare_eq_iff_eq]

theorem cmp_gt_iff (a b : LeftBound K) :
    LeftBound.cmp a b = Ordering.gt ↔ b.pos < a.pos := by
  rcases a with _ | l | l <;> rcases b with _ | r | r <;>
    simp only [LeftBound.cmp, LeftBound.pos] <;>
    (try split_ifs with h) <;>
    simp_all [emb_lt_emb, bot_lt_emb, compare_gt_iff_gt, not_lt_bot] <;>
    exact fun he => h he.symm

theorem crossCmp_lt_iff (l : LeftBound K) (r : RightBound K) :
    LeftBound.crossCmp l r = some Ordering.lt ↔ l.pos < r.pos := by
  rcases l with _ | a | a <;> rcases r with b | b | b <;>
    simp only [LeftBound.crossCmp, LeftBound.pos, RightBound.pos] <;>
    (try split_ifs with h) <;>
    simp_all [emb_lt_emb, bot_lt_emb, emb_lt_topPos, bot_lt_topPos,
      compare_lt_iff_lt, not_lt_bot]

theorem crossCmp_eq_iff (l : LeftBound K) (r : RightBound K) :
    LeftBound.crossCmp l r = some Ordering.eq ↔ l.pos = r.pos := by
  rcases l with _ | a | a <;> rcases r with b | b | b <;>
    simp only [LeftBound.crossCmp, LeftBound.pos, RightBound.pos] <;>
    (try split_ifs with h) <;>
    simp_all [emb_inj, emb_ne_bot, emb_ne_topPos, compare_eq_iff_eq,
      (bot_lt_topPos (K := K)).ne, (emb_ne_bot · · |>.symm), (emb_ne_topPos · · |>.symm)]

theorem crossCmp_gt_iff (l : LeftBound K) (r : RightBound K) :
    LeftBound.crossCmp l r = some Ordering.gt ↔ r.pos < l.pos := by
  rcases l with _ | a | a <;> rcases r with b | b | b <;>
    simp only [LeftBound.crossCmp, LeftBound.pos, RightBound.pos] <;>
    (try split_ifs with h) <;>
    simp_all [emb_lt_emb, bot_lt_emb, emb_lt_topPos, bot_lt_topPos,
      compare_gt_iff_gt, not_lt_bot] <;>
    (try exact fun he => h he.symm) <;>
    (try exact (emb_lt_topPos _ _).not_lt) <;>
    (try exact (bot_lt_emb _ _).not_lt) <;>
    (try exact (emb_lt_topPos _ _).le)

theorem crossCmp_ne_none (l : LeftBound K) (r : RightBound K) :
    LeftBound.crossCmp l r ≠ none := by
  rcases l with _ | a | a <;> rcases r with b | b | b <;>
    simp only [LeftBound.crossCmp] <;> (try split_ifs) <;> simp

theorem ble_iff (a b : LeftBound K) :
    LeftBound.ble a b = true ↔ a.pos ≤ b.pos := by
  simp only [LeftBound.ble, decide_eq_true_eq, ne_eq, cmp_gt_iff, not_lt]

theorem blt_iff (a b : LeftBound K) :
    LeftBound.blt a b = true ↔ a.pos < b.pos := by
  simp only [LeftBound.blt, decide_eq_true_eq, cmp_lt_iff]

theorem ltLeft_iff (r : RightBound K) (b : LeftBound K) :
    RightBound.ltLeft r b = true ↔ r.pos < b.pos := by
  rw [RightBound.ltLeft, decide_eq_true_eq, RightBound.crossCmpLeft]
  obtain ⟨o, ho⟩ := Option.ne_none_iff_exists'.mp (crossCmp_ne_none b r)
  rw [← crossCmp_gt_iff, ho]
  cases o <;> simp [Ordering.swap]

theorem gtRight_iff (l : LeftBound K) (r : RightBound K) :
    LeftBound.gtRight l r = true ↔ r.pos < l.pos := by
  rw [LeftBound.gtRight, decide_eq_true_eq, crossCmp_gt_iff]

theorem pos_inj {a b : LeftBound K} (h : a.pos = b.pos) : a = b := by
  rcases a with _ | l | l <;> rcases b with _ | r | r <;>
    simp_all [LeftBound.pos, emb_inj, emb_ne_bot,
      (emb_ne_bot · · |>.symm)]

theorem emb_zero_le_zero {a k : K} : emb a 0 ≤ emb k 0 ↔ a ≤ k := by
  rw [emb_le_emb]
  constructor
  · rintro (h | ⟨rfl, -⟩)
    exacts [h.le, le_rfl]
  · intro h
    rcases h.lt_or_eq with h | rfl
    exacts [Or.inl h, Or.inr ⟨rfl, le_rfl⟩]

theorem emb_one_le_zero {a k : K} : emb a 1 ≤ emb k 0 ↔ a < k := by
  rw [emb_le_emb]
  constructor
  · rintro (h | ⟨rfl, h⟩)
    · exact h
    · omega
  · exact Or.inl

theorem emb_zero_le_negone {a k : K} : emb k 0 ≤ emb a (-1) ↔ k < a := by
  rw [emb_le_emb]
  constructor
  · rintro (h | ⟨rfl, h⟩)
    · exact h
    · omega
  · exact Or.inl

theorem containsKey_iff (sp : Span K) (k : K) :
    sp.containsKey k = true ↔ sp.left.pos ≤ keyPos k ∧ keyPos k ≤ sp.right.pos := by
  obtain ⟨l, r⟩ := sp
  rw [Span.containsKey, Bool.and_eq_true]
  apply and_congr
  · rcases l with _ | a | a <;>
      simp [LeftBound.atOrBeforeKey, LeftBound.pos, keyPos, bot_le,
        emb_zero_le_zero, emb_one_le_zero]
  · rcases r with a | a | a <;>
      simp [RightBound.atOrAfterKey, RightBound.pos, keyPos,
        emb_zero_le_zero, emb_zero_le_negone, (emb_lt_topPos _ _).le]

theorem adjacentLeft_pos_gt {r : RightBound K} {e : LeftBound K}
    (h : r.adjacentLeft = some e) : r.pos < e.pos := by
  rcases r with b | b | b <;> simp_all [RightBound.adjacentLeft] <;>
    subst h <;> simp [RightBound.pos, LeftBound.pos, emb_lt_emb]

theorem adjacentLeft_le_keyPos {r : RightBound K} {e : LeftBound K} {k : K}
    (h : r.adjacentLeft = some e) (hk : r.pos < keyPos k) : e.pos ≤ keyPos k := by
  rcases r with b | b | b <;> simp_all [RightBound.adjacentLeft] <;> subst h <;>
    simp_all [RightBound.pos, LeftBound.pos, keyPos, emb_lt_emb, emb_le_emb] <;>
    omega

theorem adjacentLeft_none_keyPos {r : RightBound K} (h : r.adjacentLeft = none)
    (k : K) : keyPos k ≤ r.pos := by
  rcases r with b | b | b <;> simp_all [RightBound.adjacentLeft] <;>
    exact (emb_lt_topPos _ _).le

/-! Part: Sorted-list lemmas -/

/-- The internal map is strictly sorted by the key order. -/
def Sorted (m : SMap K V) : Prop := m.Pairwise (fun p q => p.1.pos < q.1.pos)

/-- The key `LeftBound::Unbounded` is present (invariant 1 of spec §3). -/
def HasBot (m : SMap K V) : Prop := ∃ s, (LeftBound.unbounded, s) ∈ m

/-- The representation invariant of the B-tree embedding. -/
def WF (m : SMap K V) : Prop := Sorted m ∧ HasBot m

/-- The value set of the cell covering position `b`. -/
def valueAt (m : SMap K V) (b : LeftBound K) : Finset V :=
  ((lastLE m b).map Prod.snd).getD ∅

theorem lastLE_eq_none {m : SMap K V} {b : LeftBound K}
    (h : ∀ p ∈ m, ¬ p.1.pos ≤ b.pos) : lastLE m b = none := by
  induction m with
  | nil => rfl
  | cons p rest ih =>
    have hb : LeftBound.ble p.1 b = false := by
      rw [← Bool.not_eq_true, ble_iff]
      exact h p (List.mem_cons_self p rest)
    rw [lastLE, if_neg (by simp [hb])]
    exact ih fun q hq => h q (List.mem_cons_of_mem p hq)

theorem lastLE_mem {m : SMap K V} {b : LeftBound K} {q}
    (h : lastLE m b = some q) : q ∈ m ∧ q.1.pos ≤ b.pos := by
  induction m with
  | nil => simp [lastLE] at h
  | cons p rest ih =>
    rw [lastLE] at h
    by_cases hb : LeftBound.ble p.1 b = true
    · rw [if_pos hb] at h
      rcases ho : lastLE rest b with _ | q2
      · rw [ho] at h
        simp only [Option.some.injEq] at h
        subst h
        exact ⟨List.mem_cons_self p rest, (ble_iff _ _).mp hb⟩
      · rw [ho] at h
        simp only [Option.some.injEq] at h
        subst h
        obtain ⟨h1, h2⟩ := ih ho
        exact ⟨List.mem_cons_of_mem p h1, h2⟩
    · rw [if_neg hb] at h
      obtain ⟨h1, h2⟩ := ih h
      exact ⟨List.mem_cons_of_mem p h1, h2⟩

theorem lastLE_eq_some {m : SMap K V} {b : LeftBound K} {q}
    (hs : Sorted m) (hq : q ∈ m) (hble : q.1.pos ≤ b.pos)
    (hmax : ∀ p ∈ m, p.1.pos ≤ b.pos → p.1.pos ≤ q.1.pos) :
    lastLE m b = some q := by
  induction m with
  | nil => simp at hq
  | cons p rest ih =>
    rcases List.mem_cons.mp hq with rfl | hq2
    · have hnone : lastLE rest b = none := by
        apply lastLE_eq_none
        intro r hr hle
        have h1 : q.1.pos < r.1.pos := (List.pairwise_cons.mp hs).1 r hr
        have h2 : r.1.pos ≤ q.1.pos := hmax r (List.mem_cons_of_mem q hr) hle
        exact absurd h1 h2.not_lt
      rw [lastLE, if_pos ((ble_iff _ _).mpr hble), hnone]
    · have hrec : lastLE rest b = some q := by
        apply ih (List.pairwise_cons.mp hs).2 hq2
        intro r hr hle
        exact hmax r (List.mem_cons_of_mem p hr) hle
      rw [lastLE]
      by_cases hb : LeftBound.ble p.1 b = true
      · rw [if_pos hb, hrec]
      · rw [if_neg hb]
        exact hrec

theorem lastLE_isSome {m : SMap K V} {b : LeftBound K} {p}
    (hp : p ∈ m) (hle : p.1.pos ≤ b.pos) : (lastLE m b).isSome = true := by
  rcases h : lastLE m b with _ | q
  · induction m with
    | nil => simp at hp
    | cons r rest ih =>
      rw [lastLE] at h
      by_cases hb : LeftBound.ble r.1 b = true
      · rw [if_pos hb] at h
        rcases ho : lastLE rest b with _ | q2 <;> rw [ho] at h <;> simp at h
      · rw [if_neg hb] at h
        rcases List.mem_cons.mp hp with rfl | hp2
        · exact absurd ((ble_iff _ _).mpr hle) (by simp [hb])
        · exact ih hp2 h
  · rfl

theorem sorted_uniq {m : SMap K V} (hs : Sorted m) {k : LeftBound K}
    {s t : Finset V} (h1 : (k, s) ∈ m) (h2 : (k, t) ∈ m) : s = t := by
  induction m with
  | nil => simp at h1
  | cons p rest ih =>
    obtain ⟨hhead, htail⟩ := List.pairwise_cons.mp hs
    rcases List.mem_cons.mp h1 with rfl | h1r
    · rcases List.mem_cons.mp h2 with he | h2r
      · exact (congrArg Prod.snd he).symm
      · exact absurd (hhead _ h2r) (lt_irrefl _)
    · rcases List.mem_cons.mp h2 with rfl | h2r
      · exact absurd (hhead _ h1r) (lt_irrefl _)
      · exact ih htail h1r h2r

theorem insertKey_mem {m : SMap K V} {b : LeftBound K} {s : Finset V}
    (hnot : ∀ p ∈ m, p.1 ≠ b) (q : LeftBound K × Finset V) :
    q ∈ insertKey m b s ↔ q = (b, s) ∨ q ∈ m := by
  induction m with
  | nil => simp [insertKey]
  | cons p rest ih =>
    rw [insertKey]
    rcases hc : LeftBound.cmp b p.1 with _ | _ | _
    · simp [List.mem_cons]
    · exact absurd ((cmp_eq_iff b p.1).mp hc).symm
        (hnot p (List.mem_cons_self p rest))
    · have ihr := ih fun r hr => hnot r (List.mem_cons_of_mem p hr)
      simp only [List.mem_cons, ihr]
      tauto

theorem insertKey_sorted {m : SMap K V} {b : LeftBound K} {s : Finset V}
    (hs : Sorted m) (hnot : ∀ p ∈ m, p.1 ≠ b) : Sorted (insertKey m b s) := by
  induction m with
  | nil => simp [insertKey, Sorted]
  | cons p rest ih =>
    obtain ⟨hhead, htail⟩ := List.pairwise_cons.mp hs
    rw [insertKey]
    rcases hc : LeftBound.cmp b p.1 with _ | _ | _
    · have hlt : b.pos < p.1.pos := (cmp_lt_iff b p.1).mp hc
      refine List.pairwise_cons.mpr ⟨?_, hs⟩
      intro q hq
      rcases List.mem_cons.mp hq with rfl | hq2
      · exact hlt
      · exact hlt.trans (hhead q hq2)
    · exact absurd ((cmp_eq_iff b p.1).mp hc).symm
        (hnot p (List.mem_cons_self p rest))
    · have hgt : p.1.pos < b.pos := (cmp_gt_iff b p.1).mp hc
      have hnotr : ∀ r ∈ rest, r.1 ≠ b := fun r hr => hnot r (List.mem_cons_of_mem p hr)
      refine List.pairwise_cons.mpr ⟨?_, ih htail hnotr⟩
      intro q hq
      rcases (insertKey_mem hnotr q).mp hq with rfl | hq2
      · exact hgt
      · exact hhead q hq2

/-! Part: Splitting a cell preserves the coverage function -/

theorem lastLE_max {m : SMap K V} {b : LeftBound K} {q}
    (hs : Sorted m) (h : lastLE m b = some q) :
    ∀ p ∈ m, p.1.pos ≤ b.pos → p.1.pos ≤ q.1.pos := by
  intro p hp hple
  induction m with
  | nil => simp at hp
  | cons r rest ih =>
    obtain ⟨hhead, htail⟩ := List.pairwise_cons.mp hs
    rw [lastLE] at h
    by_cases hb : LeftBound.ble r.1 b = true
    · rw [if_pos hb] at h
      rcases ho : lastLE rest b with _ | q2 <;> rw [ho] at h <;>
        simp only [Option.some.injEq] at h <;> subst h
      · rcases List.mem_cons.mp hp with rfl | hp2
        · exact le_rfl
        · have hcontra := lastLE_isSome hp2 hple
          rw [ho] at hcontra
          simp at hcontra
      · rcases List.mem_cons.mp hp with rfl | hp2
        · exact ((lastLE_mem ho).1 |> hhead _).le
        · exact ih htail ho hp2
    · rw [if_neg hb] at h
      rcases List.mem_cons.mp hp with rfl | hp2
      · exact absurd ((ble_iff _ _).mpr hple) (by simp [hb])
      · exact ih htail h hp2

theorem wf_lastLE_isSome {m : SMap K V} (hwf : WF m) (b : LeftBound K) :
    (lastLE m b).isSome = true := by
  obtain ⟨s, hs⟩ := hwf.2
  exact lastLE_isSome hs bot_le

theorem ensureBoundary_eq_some {m : SMap K V} {b : LeftBound K} {p}
    (hp : lastLE m b = some p) :
    ensureBoundary m b = if p.1 = b then m else insertKey m b p.2 := by
  simp only [ensureBoundary]
  rw [hp]

theorem ensureBoundary_eq_none {m : SMap K V} {b : LeftBound K}
    (hp : lastLE m b = none) : ensureBoundary m b = insertKey m b ∅ := by
  simp only [ensureBoundary]
  rw [hp]

theorem lastLE_key_not_mem {m : SMap K V} {b : LeftBound K} {p}
    (hwf : WF m) (hp : lastLE m b = some p) (hne : p.1 ≠ b) :
    ∀ q ∈ m, q.1 ≠ b := by
  intro q hq hqb
  have h1 : b.pos ≤ p.1.pos := by
    rw [← hqb]
    exact lastLE_max hwf.1 hp q hq (le_of_eq (congrArg LeftBound.pos hqb))
  exact hne (pos_inj (le_antisymm (lastLE_mem hp).2 h1))

theorem insertKey_mem_fwd {m : SMap K V} {b : LeftBound K} {s : Finset V}
    {q} (h : q ∈ insertKey m b s) : q = (b, s) ∨ q ∈ m := by
  induction m with
  | nil => simpa [insertKey] using h
  | cons p rest ih =>
    rw [insertKey] at h
    rcases hc : LeftBound.cmp b p.1 with _ | _ | _ <;> rw [hc] at h
    · simpa [List.mem_cons] using h
    · rcases List.mem_cons.mp h with rfl | h2
      · exact Or.inl rfl
      · exact Or.inr (List.mem_cons_of_mem p h2)
    · rcases List.mem_cons.mp h with h1 | h2
      · exact Or.inr (h1 ▸ List.mem_cons_self p rest)
      · rcases ih h2 with h3 | h3
        · exact Or.inl h3
        · exact Or.inr (List.mem_cons_of_mem p h3)

theorem ensureBoundary_mem_fwd {m : SMap K V} {b : LeftBound K} {q}
    (h : q ∈ ensureBoundary m b) : q.1 = b ∨ q ∈ m := by
  rcases hp : lastLE m b with _ | p
  · rw [ensureBoundary_eq_none hp] at h
    rcases insertKey_mem_fwd h with rfl | h2
    · exact Or.inl rfl
    · exact Or.inr h2
  · rw [ensureBoundary_eq_some hp] at h
    by_cases heq : p.1 = b
    · rw [if_pos heq] at h
      exact Or.inr h
    · rw [if_neg heq] at h
      rcases insertKey_mem_fwd h with rfl | h2
      · exact Or.inl rfl
      · exact Or.inr h2

theorem ensureBoundary_mem_mono {m : SMap K V} {b : LeftBound K} {q}
    (hwf : WF m) (hq : q ∈ m) : q ∈ ensureBoundary m b := by
  rcases hp : lastLE m b with _ | p
  · exact absurd (wf_lastLE_isSome hwf b) (by simp [hp])
  rw [ensureBoundary_eq_some hp]
  by_cases heq : p.1 = b
  · rw [if_pos heq]
    exact hq
  · rw [if_neg heq]
    exact (insertKey_mem (lastLE_key_not_mem hwf hp heq) q).mpr (Or.inr hq)

theorem ensureBoundary_mem_self {m : SMap K V} (hwf : WF m) (b : LeftBound K) :
    ∃ s, (b, s) ∈ ensureBoundary m b := by
  rcases hp : lastLE m b with _ | p
  · exact absurd (wf_lastLE_isSome hwf b) (by simp [hp])
  rw [ensureBoundary_eq_some hp]
  by_cases heq : p.1 = b
  · rw [if_pos heq]
    refine ⟨p.2, ?_⟩
    rw [← heq]
    exact (lastLE_mem hp).1
  · rw [if_neg heq]
    exact ⟨p.2, (insertKey_mem (lastLE_key_not_mem hwf hp heq) _).mpr (Or.inl rfl)⟩

theorem ensureBoundary_WF {m : SMap K V} (hwf : WF m) (b : LeftBound K) :
    WF (ensureBoundary m b) := by
  rcases hp : lastLE m b with _ | p
  · exact absurd (wf_lastLE_isSome hwf b) (by simp [hp])
  rw [ensureBoundary_eq_some hp]
  by_cases heq : p.1 = b
  · rw [if_pos heq]
    exact hwf
  · rw [if_neg heq]
    have hnot := lastLE_key_not_mem hwf hp heq
    obtain ⟨s, hs⟩ := hwf.2
    exact ⟨insertKey_sorted hwf.1 hnot,
      ⟨s, (insertKey_mem hnot _).mpr (Or.inr hs)⟩⟩

theorem ensureBoundary_valueAt {m : SMap K V} (hwf : WF m) (b b' : LeftBound K) :
    valueAt (ensureBoundary m b) b' = valueAt m b' := by
  rcases hp : lastLE m b with _ | p
  · exact absurd (wf_lastLE_isSome hwf b) (by simp [hp])
  rw [ensureBoundary_eq_some hp]
  by_cases heq : p.1 = b
  · rw [if_pos heq]
  rw [if_neg heq]
  have hnot := lastLE_key_not_mem hwf hp heq
  have hs' : Sorted (insertKey m b p.2) := insertKey_sorted hwf.1 hnot
  obtain ⟨q1, hq1⟩ := Option.isSome_iff_exists.mp (wf_lastLE_isSome hwf b')
  by_cases hbb' : b.pos ≤ b'.pos
  · by_cases hk : b.pos ≤ q1.1.pos
    · have hbq : b.pos < q1.1.pos := by
        rcases hk.lt_or_eq with h | h
        · exact h
        · exact absurd (pos_inj h.symm) (hnot q1 (lastLE_mem hq1).1)
      have hnew : lastLE (insertKey m b p.2) b' = some q1 := by
        apply lastLE_eq_some hs'
          ((insertKey_mem hnot q1).mpr (Or.inr (lastLE_mem hq1).1)) (lastLE_mem hq1).2
        intro r hr hrle
        rcases (insertKey_mem hnot r).mp hr with rfl | hr2
        · exact hbq.le
        · exact lastLE_max hwf.1 hq1 r hr2 hrle
      rw [valueAt, valueAt, hnew, hq1]
    · push_neg at hk
      have hq1m := lastLE_mem hq1
      have hpm := lastLE_mem hp
      have h1 : p.1.pos ≤ q1.1.pos := lastLE_max hwf.1 hq1 p hpm.1 (hpm.2.trans hbb')
      have h2 : q1.1.pos ≤ p.1.pos := lastLE_max hwf.1 hp q1 hq1m.1 hk.le
      have hval : p.2 = q1.2 := by
        have hpe : p.1 = q1.1 := pos_inj (le_antisymm h1 h2)
        have hpm1 : (q1.1, p.2) ∈ m := by
          rw [← hpe]
          exact hpm.1
        exact sorted_uniq hwf.1 hpm1 hq1m.1
      have hnew : lastLE (insertKey m b p.2) b' = some (b, p.2) := by
        apply lastLE_eq_some hs' ((insertKey_mem hnot _).mpr (Or.inl rfl)) hbb'
        intro r hr hrle
        rcases (insertKey_mem hnot r).mp hr with rfl | hr2
        · exact le_rfl
        · exact (lastLE_max hwf.1 hq1 r hr2 hrle).trans hk.le
      rw [valueAt, valueAt, hnew, hq1]
      simp [hval]
  · have hnew : lastLE (insertKey m b p.2) b' = some q1 := by
      apply lastLE_eq_some hs'
        ((insertKey_mem hnot q1).mpr (Or.inr (lastLE_mem hq1).1)) (lastLE_mem hq1).2
      intro r hr hrle
      rcases (insertKey_mem hnot r).mp hr with rfl | hr2
      · exact absurd hrle hbb'
      · exact lastLE_max hwf.1 hq1 r hr2 hrle
    rw [valueAt, valueAt, hnew, hq1]

/-! Part: The apply loop and the merge pass -/

/-- A cell with key `b` is visited by the `range_mut(span.left..)` loop:
its key is not before `span.left` and does not exceed `span.right`. -/
def inWindowB (sp : Span K) (b : LeftBound K) : Bool :=
  !(LeftBound.blt b sp.left) && !(RightBound.ltLeft sp.right b)

/-- The effect of step 3 of `update_set_in_span` on a single cell. -/
def applyCell (sp : Span K) (f : Finset V → Finset V)
    (p : LeftBound K × Finset V) : LeftBound K × Finset V :=
  (p.1, if inWindowB sp p.1 = true then f p.2 else p.2)

theorem applyFrom_eq_map {sp : Span K} {f : Finset V → Finset V}
    {l : SMap K V} (hs : Sorted l)
    (hge : ∀ p ∈ l, LeftBound.blt p.1 sp.left = false) :
    applyFrom sp.right f l = l.map (applyCell sp f) := by
  induction l with
  | nil => rfl
  | cons p rest ih =>
    obtain ⟨hhead, htail⟩ := List.pairwise_cons.mp hs
    rw [applyFrom, List.map_cons]
    by_cases hlt : RightBound.ltLeft sp.right p.1 = true
    · rw [if_pos hlt]
      have hcell : applyCell sp f p = p := by
        simp [applyCell, inWindowB, hlt]
      have hrest : rest.map (applyCell sp f) = rest := by
        rw [List.map_congr_left (g := id), List.map_id]
        intro q hq
        have hql : RightBound.ltLeft sp.right q.1 = true := by
          rw [ltLeft_iff] at hlt ⊢
          exact hlt.trans (hhead q hq)
        simp [applyCell, inWindowB, hql]
      rw [hcell, hrest]
    · rw [if_neg hlt]
      have hcell : applyCell sp f p = (p.1, f p.2) := by
        simp [applyCell, inWindowB, hge p (List.mem_cons_self p rest),
          Bool.not_eq_true _ ▸ hlt]
      rw [← hcell, ih htail fun q hq => hge q (List.mem_cons_of_mem p hq)]

theorem sorted_dropWhile_not_blt {m : SMap K V} (hs : Sorted m)
    (left : LeftBound K) :
    ∀ p ∈ m.dropWhile (fun p => LeftBound.blt p.1 left),
      LeftBound.blt p.1 left = false := by
  induction m with
  | nil => simp
  | cons p rest ih =>
    obtain ⟨hhead, htail⟩ := List.pairwise_cons.mp hs
    intro q hq
    rw [List.dropWhile_cons] at hq
    by_cases hp : LeftBound.blt p.1 left = true
    · rw [if_pos hp] at hq
      exact ih htail q hq
    · rw [if_neg hp] at hq
      rcases List.mem_cons.mp hq with rfl | hq2
      · exact Bool.not_eq_true _ ▸ hp
      · rw [← Bool.not_eq_true, blt_iff, not_lt]
        rw [Bool.not_eq_true, ← Bool.not_eq_true, blt_iff, not_lt] at hp
        exact hp.trans (hhead q hq2).le

theorem window_eq_map {m : SMap K V} (hs : Sorted m) (sp : Span K)
    (f : Finset V → Finset V) :
    m.takeWhile (fun p => LeftBound.blt p.1 sp.left) ++
      applyFrom sp.right f (m.dropWhile (fun p => LeftBound.blt p.1 sp.left)) =
    m.map (applyCell sp f) := by
  have hdrop : Sorted (m.dropWhile (fun p => LeftBound.blt p.1 sp.left)) :=
    List.Pairwise.sublist (List.dropWhile_sublist _) hs
  rw [applyFrom_eq_map hdrop (sorted_dropWhile_not_blt hs sp.left)]
  conv_rhs => rw [← List.takeWhile_append_dropWhile
    (p := fun p => LeftBound.blt p.1 sp.left) (l := m)]
  rw [List.map_append]
  congr 1
  rw [List.map_congr_left (g := id), List.map_id]
  intro q hq
  have hblt := List.mem_takeWhile_imp hq
  simp [applyCell, inWindowB, hblt]

theorem lastLE_map {m : SMap K V} {b : LeftBound K}
    {g : LeftBound K × Finset V → LeftBound K × Finset V}
    (hg : ∀ p, (g p).1 = p.1) :
    lastLE (m.map g) b = (lastLE m b).map g := by
  induction m with
  | nil => rfl
  | cons p rest ih =>
    rw [List.map_cons, lastLE, lastLE, hg p, ih]
    by_cases hb : LeftBound.ble p.1 b = true
    · rw [if_pos hb, if_pos hb]
      rcases lastLE rest b with _ | q <;> rfl
    · rw [if_neg hb, if_neg hb]

theorem sorted_map {m : SMap K V}
    {g : LeftBound K × Finset V → LeftBound K × Finset V}
    (hg : ∀ p, (g p).1 = p.1) (hs : Sorted m) : Sorted (m.map g) := by
  refine List.Pairwise.map g ?_ hs
  intro a c h
  rw [hg a, hg c]
  exact h

theorem hasBot_map {m : SMap K V}
    {g : LeftBound K × Finset V → LeftBound K × Finset V}
    (hg : ∀ p, (g p).1 = p.1) (hb : HasBot m) : HasBot (m.map g) := by
  obtain ⟨s, hs⟩ := hb
  refine ⟨(g (LeftBound.unbounded, s)).2, ?_⟩
  have : g (LeftBound.unbounded, s) =
      (LeftBound.unbounded, (g (LeftBound.unbounded, s)).2) := by
    rw [Prod.ext_iff]
    exact ⟨hg _, rfl⟩
  rw [← this]
  exact List.mem_map_of_mem g hs

theorem mergeAdjacentLeft_spec {m : SMap K V} (hs : Sorted m) (b : LeftBound K) :
    mergeAdjacentLeft m b = m ∨
    ∃ rp lp, rp ∈ m ∧ lp ∈ m ∧ lp.2 = rp.2 ∧ lp.1.pos < rp.1.pos ∧
      (∀ p ∈ m, ¬(lp.1.pos < p.1.pos ∧ p.1.pos < rp.1.pos)) ∧
      mergeAdjacentLeft m b = removeKey m rp.1 := by
  rcases hrev : (m.filter (fun p => LeftBound.ble p.1 b)).reverse with _ | ⟨rp, tl⟩
  · left
    simp only [mergeAdjacentLeft]
    rw [hrev]
  rcases tl with _ | ⟨lp, tl2⟩
  · left
    simp only [mergeAdjacentLeft]
    rw [hrev]
  by_cases hset : lp.2 = rp.2
  case neg =>
    left
    simp only [mergeAdjacentLeft]
    rw [hrev]
    show (if lp.2 = rp.2 then removeKey m rp.1 else m) = m
    rw [if_neg hset]
  right
  refine ⟨rp, lp, ?_, ?_, hset, ?_, ?_, ?_⟩
  case _ =>
    have : rp ∈ (m.filter (fun p => LeftBound.ble p.1 b)).reverse := by
      rw [hrev]
      exact List.mem_cons_self _ _
    exact (List.mem_filter.mp (List.mem_reverse.mp this)).1
  case _ =>
    have : lp ∈ (m.filter (fun p => LeftBound.ble p.1 b)).reverse := by
      rw [hrev]
      exact List.mem_cons_of_mem _ (List.mem_cons_self _ _)
    exact (List.mem_filter.mp (List.mem_reverse.mp this)).1
  case _ =>
    have hpw : Sorted (m.filter (fun p => LeftBound.ble p.1 b)) :=
      List.Pairwise.filter _ hs
    rw [List.reverse_eq_iff.mp hrev, List.reverse_cons, List.reverse_cons,
      List.append_assoc] at hpw
    obtain ⟨-, h2, -⟩ := List.pairwise_append.mp hpw
    simpa using h2
  case _ =>
    intro p hp ⟨hl, hr⟩
    have hrble : LeftBound.ble rp.1 b = true := by
      have : rp ∈ (m.filter (fun p => LeftBound.ble p.1 b)).reverse := by
        rw [hrev]
        exact List.mem_cons_self _ _
      exact (List.mem_filter.mp (List.mem_reverse.mp this)).2
    have hpble : LeftBound.ble p.1 b = true := by
      rw [ble_iff]
      exact hr.le.trans ((ble_iff _ _).mp hrble)
    have hpmem : p ∈ (m.filter (fun q => LeftBound.ble q.1 b)).reverse :=
      List.mem_reverse.mpr (List.mem_filter.mpr ⟨hp, hpble⟩)
    rw [hrev] at hpmem
    rcases List.mem_cons.mp hpmem with rfl | hpmem2
    · exact absurd hr (lt_irrefl _)
    rcases List.mem_cons.mp hpmem2 with rfl | hpmem3
    · exact absurd hl (lt_irrefl _)
    have hpw : Sorted (m.filter (fun p => LeftBound.ble p.1 b)) :=
      List.Pairwise.filter _ hs
    rw [List.reverse_eq_iff.mp hrev, List.reverse_cons, List.reverse_cons,
      List.append_assoc] at hpw
    obtain ⟨-, -, hcross⟩ := List.pairwise_append.mp hpw
    have := hcross p (List.mem_reverse.mpr hpmem3) lp (by simp)
    exact absurd hl this.not_lt
  case _ =>
    simp only [mergeAdjacentLeft]
    rw [hrev]
    show (if lp.2 = rp.2 then removeKey m rp.1 else m) = removeKey m rp.1
    rw [if_pos hset]

theorem removeKey_mem {m : SMap K V} {k : LeftBound K} {q} :
    q ∈ removeKey m k ↔ q ∈ m ∧ q.1 ≠ k := by
  simp [removeKey, List.mem_filter]

theorem removeKey_sorted {m : SMap K V} {k : LeftBound K} (hs : Sorted m) :
    Sorted (removeKey m k) :=
  List.Pairwise.filter _ hs

theorem mergeAdjacentLeft_mem_fwd {m : SMap K V} {b : LeftBound K} {q}
    (hs : Sorted m) (h : q ∈ mergeAdjacentLeft m b) : q ∈ m := by
  rcases mergeAdjacentLeft_spec hs b with heq | ⟨rp, lp, _, _, _, _, _, heq⟩ <;>
    rw [heq] at h
  · exact h
  · exact (removeKey_mem.mp h).1

theorem mergeAdjacentLeft_WF {m : SMap K V} (hwf : WF m) (b : LeftBound K) :
    WF (mergeAdjacentLeft m b) := by
  rcases mergeAdjacentLeft_spec hwf.1 b with heq | ⟨rp, lp, hrm, hlm, hset, hlt, hnob, heq⟩ <;>
    rw [heq]
  · exact hwf
  · refine ⟨removeKey_sorted hwf.1, ?_⟩
    obtain ⟨s, hs⟩ := hwf.2
    refine ⟨s, removeKey_mem.mpr ⟨hs, ?_⟩⟩
    intro hub
    have : rp.1.pos = (⊥ : Pos K) := by
      rw [← hub]
      rfl
    rw [this] at hlt
    exact absurd hlt (not_lt_bot)

theorem mergeAdjacentLeft_valueAt {m : SMap K V} (hwf : WF m)
    (b b' : LeftBound K) :
    valueAt (mergeAdjacentLeft m b) b' = valueAt m b' := by
  rcases mergeAdjacentLeft_spec hwf.1 b with heq | ⟨rp, lp, hrm, hlm, hset, hlt, hnob, heq⟩ <;>
    rw [heq]
  obtain ⟨q1, hq1⟩ := Option.isSome_iff_exists.mp (wf_lastLE_isSome hwf b')
  have hq1m := lastLE_mem hq1
  have hlpne : lp.1 ≠ rp.1 := fun h => absurd (congrArg LeftBound.pos h ▸ hlt) (lt_irrefl _)
  by_cases hqr : q1.1 = rp.1
  · have hrs : q1.2 = rp.2 := by
      have h1 : (rp.1, q1.2) ∈ m := by
        rw [← hqr]
        exact hq1m.1
      have h2 : (rp.1, rp.2) ∈ m := hrm
      exact sorted_uniq hwf.1 h1 h2
    have hnew : lastLE (removeKey m rp.1) b' = some lp := by
      apply lastLE_eq_some (removeKey_sorted hwf.1)
        (removeKey_mem.mpr ⟨hlm, hlpne⟩)
      · refine hlt.le.trans ?_
        rw [← hqr]
        exact hq1m.2
      · intro r hr hrle
        obtain ⟨hrm2, hrne⟩ := removeKey_mem.mp hr
        have hmax := lastLE_max hwf.1 hq1 r hrm2 hrle
        rw [hqr] at hmax
        have hstrict : r.1.pos < rp.1.pos := by
          rcases hmax.lt_or_eq with h | h
          · exact h
          · exact absurd (pos_inj h) hrne
        by_contra hcon
        push_neg at hcon
        exact hnob r hrm2 ⟨hcon, hstrict⟩
    rw [valueAt, valueAt, hnew, hq1]
    simp only [Option.map_some', Option.getD_some]
    rw [hset, ← hrs]
  · have hnew : lastLE (removeKey m rp.1) b' = some q1 := by
      apply lastLE_eq_some (removeKey_sorted hwf.1)
        (removeKey_mem.mpr ⟨hq1m.1, hqr⟩) hq1m.2
      intro r hr hrle
      exact lastLE_max hwf.1 hq1 r (removeKey_mem.mp hr).1 hrle
    rw [valueAt, valueAt, hnew, hq1]

/-! Part: The step lemma: one mutation changes coverage exactly inside the span -/

theorem applyCell_key (sp : Span K) (f : Finset V → Finset V)
    (p : LeftBound K × Finset V) : (applyCell sp f p).1 = p.1 := rfl

theorem getValues_eq_valueAt (m : SMap K V) (k : K) :
    getValues m k = valueAt m (.included k) := rfl

theorem keyPos_eq (k : K) : (LeftBound.included k).pos = keyPos k := rfl

theorem atOrBeforeKey_iff (l : LeftBound K) (k : K) :
    l.atOrBeforeKey k = true ↔ l.pos ≤ keyPos k := by
  rcases l with _ | a | a <;>
    simp [LeftBound.atOrBeforeKey, LeftBound.pos, keyPos, bot_le,
      emb_zero_le_zero, emb_one_le_zero]

theorem atOrAfterKey_iff (r : RightBound K) (k : K) :
    r.atOrAfterKey k = true ↔ keyPos k ≤ r.pos := by
  rcases r with a | a | a <;>
    simp [RightBound.atOrAfterKey, RightBound.pos, keyPos,
      emb_zero_le_zero, emb_zero_le_negone, (emb_lt_topPos _ _).le]

/-- The cell covering `k` after the two `ensure_boundary` calls is visited by
the apply loop exactly when `k` lies within the span. -/
theorem covering_inWindow {m2 : SMap K V} (hwf2 : WF m2) (sp : Span K) (k : K)
    (hstart : ∃ s, (sp.left, s) ∈ m2)
    (hend : ∀ eb, sp.right.adjacentLeft = some eb → ∃ s, (eb, s) ∈ m2)
    {q2} (hq2 : lastLE m2 (.included k) = some q2) :
    inWindowB sp q2.1 = sp.containsKey k := by
  have hq2m := lastLE_mem hq2
  by_cases hc : sp.containsKey k = true
  · obtain ⟨hc1, hc2⟩ := (containsKey_iff sp k).mp hc
    rw [hc]
    obtain ⟨s, hsm⟩ := hstart
    have hmax : sp.left.pos ≤ q2.1.pos := by
      have := lastLE_max hwf2.1 hq2 (sp.left, s) hsm
      rw [keyPos_eq] at this
      exact this hc1
    rw [inWindowB, Bool.and_eq_true, Bool.not_eq_true', Bool.not_eq_true',
      ← Bool.not_eq_true, ← Bool.not_eq_true, blt_iff, ltLeft_iff]
    constructor
    · exact hmax.not_lt
    · rw [not_lt]
      refine hq2m.2.trans ?_
      rw [keyPos_eq]
      exact hc2
  · rw [Bool.not_eq_true] at hc
    rw [hc]
    rw [Span.containsKey, Bool.and_eq_false_iff, ← Bool.not_eq_true,
      ← Bool.not_eq_true, atOrBeforeKey_iff, atOrAfterKey_iff] at hc
    rw [inWindowB, Bool.and_eq_false_iff, Bool.not_eq_false', Bool.not_eq_false',
      blt_iff, ltLeft_iff]
    rcases hc with hc1 | hc2
    · left
      rw [not_le] at hc1
      exact lt_of_le_of_lt (keyPos_eq k ▸ hq2m.2) hc1
    · rw [not_le] at hc2
      rcases he : sp.right.adjacentLeft with _ | eb
      · exact absurd (adjacentLeft_none_keyPos he k) hc2.not_le
      obtain ⟨s, hsm⟩ := hend eb he
      have hle : eb.pos ≤ q2.1.pos := by
        have := lastLE_max hwf2.1 hq2 (eb, s) hsm
        rw [keyPos_eq] at this
        exact this (adjacentLeft_le_keyPos he hc2)
      right
      exact lt_of_lt_of_le (adjacentLeft_pos_gt he) hle

theorem updateSetInSpan_eq_none {m : SMap K V} {sp : Span K}
    {f : Finset V → Finset V} (he : sp.right.adjacentLeft = none) :
    updateSetInSpan m sp f =
      mergeAdjacentLeft
        ((ensureBoundary m sp.left).takeWhile (fun p => LeftBound.blt p.1 sp.left) ++
          applyFrom sp.right f
            ((ensureBoundary m sp.left).dropWhile (fun p => LeftBound.blt p.1 sp.left)))
        sp.left := by
  simp only [updateSetInSpan]
  rw [he]

theorem updateSetInSpan_eq_some {m : SMap K V} {sp : Span K}
    {f : Finset V → Finset V} {eb : LeftBound K}
    (he : sp.right.adjacentLeft = some eb) :
    updateSetInSpan m sp f =
      mergeAdjacentLeft (mergeAdjacentLeft
        ((ensureBoundary (ensureBoundary m sp.left) eb).takeWhile
            (fun p => LeftBound.blt p.1 sp.left) ++
          applyFrom sp.right f
            ((ensureBoundary (ensureBoundary m sp.left) eb).dropWhile
              (fun p => LeftBound.blt p.1 sp.left)))
        sp.left) eb := by
  simp only [updateSetInSpan]
  rw [he]

theorem updateSetInSpan_WF {m : SMap K V} (hwf : WF m) (sp : Span K)
    (f : Finset V → Finset V) : WF (updateSetInSpan m sp f) := by
  have hwf1 := ensureBoundary_WF hwf sp.left
  rcases he : sp.right.adjacentLeft with _ | eb
  · rw [updateSetInSpan_eq_none he, window_eq_map hwf1.1 sp f]
    exact mergeAdjacentLeft_WF
      ⟨sorted_map (applyCell_key sp f) hwf1.1, hasBot_map (applyCell_key sp f) hwf1.2⟩
      sp.left
  · have hwf2 := ensureBoundary_WF hwf1 eb
    rw [updateSetInSpan_eq_some he, window_eq_map hwf2.1 sp f]
    exact mergeAdjacentLeft_WF (mergeAdjacentLeft_WF
      ⟨sorted_map (applyCell_key sp f) hwf2.1, hasBot_map (applyCell_key sp f) hwf2.2⟩
      sp.left) eb

/-- The heart of the verification: one `update_set_in_span` changes the
coverage function exactly inside the span and nowhere else. -/
theorem updateSetInSpan_getValues {m : SMap K V} (hwf : WF m) (sp : Span K)
    (f : Finset V → Finset V) (k : K) :
    getValues (updateSetInSpan m sp f) k =
      if sp.containsKey k = true then f (getValues m k) else getValues m k := by
  rcases he : sp.right.adjacentLeft with _ | eb
  · have hwf1 := ensureBoundary_WF hwf sp.left
    have hwf3 : WF ((ensureBoundary m sp.left).map (applyCell sp f)) :=
      ⟨sorted_map (applyCell_key sp f) hwf1.1, hasBot_map (applyCell_key sp f) hwf1.2⟩
    rw [updateSetInSpan_eq_none he, window_eq_map hwf1.1 sp f,
      getValues_eq_valueAt, mergeAdjacentLeft_valueAt hwf3 sp.left]
    obtain ⟨q2, hq2⟩ := Option.isSome_iff_exists.mp (wf_lastLE_isSome hwf1 (.included k))
    have hwin : inWindowB sp q2.1 = sp.containsKey k := by
      refine covering_inWindow hwf1 sp k (ensureBoundary_mem_self hwf sp.left) ?_ hq2
      intro eb' he'
      rw [he] at he'
      exact absurd he' (by simp)
    have hval : q2.2 = getValues m k := by
      rw [getValues_eq_valueAt, ← ensureBoundary_valueAt hwf sp.left (.included k),
        valueAt, hq2]
      rfl
    rw [valueAt, lastLE_map (applyCell_key sp f), hq2]
    simp only [Option.map_some', Option.getD_some, applyCell]
    rw [hwin, hval]
  · have hwf1 := ensureBoundary_WF hwf sp.left
    have hwf2 := ensureBoundary_WF hwf1 eb
    have hwf3 : WF ((ensureBoundary (ensureBoundary m sp.left) eb).map (applyCell sp f)) :=
      ⟨sorted_map (applyCell_key sp f) hwf2.1, hasBot_map (applyCell_key sp f) hwf2.2⟩
    rw [updateSetInSpan_eq_some he, window_eq_map hwf2.1 sp f,
      getValues_eq_valueAt,
      mergeAdjacentLeft_valueAt (mergeAdjacentLeft_WF hwf3 sp.left) eb,
      mergeAdjacentLeft_valueAt hwf3 sp.left]
    obtain ⟨q2, hq2⟩ := Option.isSome_iff_exists.mp (wf_lastLE_isSome hwf2 (.included k))
    have hwin : inWindowB sp q2.1 = sp.containsKey k := by
      refine covering_inWindow hwf2 sp k ?_ ?_ hq2
      · obtain ⟨s, hs⟩ := ensureBoundary_mem_self hwf sp.left
        exact ⟨s, ensureBoundary_mem_mono hwf1 hs⟩
      · intro eb' he'
        rw [he] at he'
        obtain rfl : eb = eb' := by
          simpa using he'
        exact ensureBoundary_mem_self hwf1 eb
    have hval : q2.2 = getValues m k := by
      rw [getValues_eq_valueAt, ← ensureBoundary_valueAt hwf sp.left (.included k),
        ← ensureBoundary_valueAt hwf1 eb (.included k), valueAt, hq2]
      rfl
    rw [valueAt, lastLE_map (applyCell_key sp f), hq2]
    simp only [Option.map_some', Option.getD_some, applyCell]
    rw [hwin, hval]

/-! Part: Coverage over operation sequences -/

theorem newMap_WF : WF (newMap : SMap K V) := by
  refine ⟨List.pairwise_singleton _ _, ⟨∅, List.mem_singleton_self _⟩⟩

theorem getValues_newMap (k : K) : getValues (newMap : SMap K V) k = ∅ := rfl

theorem foldl_applyOp_WF {m : SMap K V} (hwf : WF m) (ops : List (Op K V)) :
    WF (ops.foldl applyOp m) := by
  induction ops generalizing m with
  | nil => exact hwf
  | cons op rest ih =>
    rw [List.foldl_cons]
    rcases op with ⟨sp, v⟩ | ⟨sp, v⟩ <;>
      exact ih (updateSetInSpan_WF hwf sp _)

theorem runOps_WF (ops : List (Op K V)) : WF (runOps ops) :=
  foldl_applyOp_WF newMap_WF ops

/-- The operation is relevant to `(k, v)`: its span contains `k` and its
value is `v` (the claim quantifies over "all inserts/removes whose range
contains `k` and whose value is `v`"). -/
def relevantB (k : K) (v : V) : Op K V → Bool
  | .ins sp w => sp.containsKey k && decide (v = w)
  | .rem sp w => sp.containsKey k && decide (v = w)

/-- Is the operation an insert? -/
def isInsert : Op K V → Bool
  | .ins _ _ => true
  | .rem _ _ => false

/-- The most recent operation among all relevant ones, if any. -/
def mostRecentRelevant (ops : List (Op K V)) (k : K) (v : V) : Option (Op K V) :=
  (ops.filter (relevantB k v)).getLast?

theorem getValues_applyOp {m : SMap K V} (hwf : WF m) (op : Op K V)
    (k : K) (v : V) :
    (v ∈ getValues (applyOp m op) k) ↔
      (if relevantB k v op = true then isInsert op = true
       else v ∈ getValues m k) := by
  rcases op with ⟨sp, w⟩ | ⟨sp, w⟩ <;>
    rw [applyOp] <;>
    simp only [insertSpan, removeSpan] <;>
    rw [updateSetInSpan_getValues hwf sp _ k] <;>
    simp only [relevantB, isInsert, Bool.and_eq_true, decide_eq_true_eq] <;>
    by_cases hc : sp.containsKey k = true <;>
    by_cases hv : v = w <;>
    simp [hc, hv, Finset.mem_insert, Finset.mem_erase]

theorem getValues_foldl {m : SMap K V} (hwf : WF m) (ops : List (Op K V))
    (k : K) (v : V) :
    (v ∈ getValues (ops.foldl applyOp m) k) ↔
      (match mostRecentRelevant ops k v with
       | some op => isInsert op = true
       | none => v ∈ getValues m k) := by
  induction ops generalizing m with
  | nil => rw [mostRecentRelevant]; rfl
  | cons op rest ih =>
    rw [List.foldl_cons, ih (by
      rcases op with ⟨sp, w⟩ | ⟨sp, w⟩ <;> exact updateSetInSpan_WF hwf sp _)]
    rw [mostRecentRelevant, mostRecentRelevant, List.filter_cons]
    by_cases hrel : relevantB k v op = true
    · rw [if_pos hrel]
      rcases hfl : rest.filter (relevantB k v) with _ | ⟨x, xs⟩
      · show (v ∈ getValues (applyOp m op) k) ↔ isInsert op = true
        rw [getValues_applyOp hwf op k v, if_pos hrel]
      · rw [List.getLast?_cons_cons]
        obtain ⟨y, hy⟩ := Option.isSome_iff_exists.mp
          (List.getLast?_isSome.mpr (List.cons_ne_nil x xs))
        rw [hy]
    · rw [if_neg hrel]
      rcases hl : (rest.filter (relevantB k v)).getLast? with _ | op2
      · show (v ∈ getValues (applyOp m op) k) ↔ v ∈ getValues m k
        rw [getValues_applyOp hwf op k v, if_neg hrel]
      · rfl

/-! Part: Claim-level lemmas -/

/-- C1.  For every operation sequence, key and value: the value is yielded
by `get` iff some relevant insert occurred and the most recent relevant
operation was an insert. -/
theorem get_iff_most_recent_insert (ops : List (Op K V)) (k : K) (v : V) :
    v ∈ getValues (runOps ops) k ↔
      ((∃ op ∈ ops, relevantB k v op = true ∧ isInsert op = true) ∧
       (∃ op, mostRecentRelevant ops k v = some op ∧ isInsert op = true)) := by
  rw [runOps, getValues_foldl newMap_WF]
  rcases h : mostRecentRelevant ops k v with _ | op
  · simp [getValues_newMap, h]
  · have hmem : op ∈ ops ∧ relevantB k v op = true := by
      have h2 := List.mem_of_getLast?_eq_some h
      exact ⟨(List.mem_filter.mp h2).1, (List.mem_filter.mp h2).2⟩
    constructor
    · intro hi
      exact ⟨⟨op, hmem.1, hmem.2, hi⟩, ⟨op, rfl, hi⟩⟩
    · rintro ⟨-, op2, heq, hi⟩
      obtain rfl : op = op2 := by simpa using heq
      exact hi

/-- C3.  `Unbounded` is always present, and the internal lookup of `get`
always finds an entry. -/
theorem unbounded_present_get_total (ops : List (Op K V)) (k : K) :
    (∃ s, (LeftBound.unbounded, s) ∈ runOps ops) ∧
      (getCell (runOps ops) k).isSome = true := by
  refine ⟨(runOps_WF ops).2, ?_⟩
  rw [getCell, Option.isSome_map']
  exact wf_lastLE_isSome (runOps_WF ops) _

/-- C7 (amended).  Inserting the same span and value twice yields the same
observable coverage as inserting once. -/
theorem insert_twice_getValues (ops : List (Op K V)) (sp : Span K) (v : V)
    (k : K) :
    getValues (insertSpan (insertSpan (runOps ops) sp v) sp v) k =
      getValues (insertSpan (runOps ops) sp v) k := by
  rw [insertSpan, insertSpan,
    updateSetInSpan_getValues (updateSetInSpan_WF (runOps_WF ops) sp _) sp _ k,
    updateSetInSpan_getValues (runOps_WF ops) sp _ k]
  by_cases hc : sp.containsKey k = true <;> simp [hc, Finset.insert_idem]

/-- C10 (amended).  Removing a value absent from every key covered by the
span leaves the observable coverage unchanged. -/
theorem remove_absent_getValues (ops : List (Op K V)) (sp : Span K) (v : V)
    (habs : ∀ k, sp.containsKey k = true → v ∉ getValues (runOps ops) k)
    (k : K) :
    getValues (removeSpan (runOps ops) sp v) k = getValues (runOps ops) k := by
  rw [removeSpan, updateSetInSpan_getValues (runOps_WF ops) sp _ k]
  by_cases hc : sp.containsKey k = true
  · rw [if_pos hc]
    exact Finset.erase_eq_of_not_mem (habs k hc)
  · rw [if_neg hc]

/-! Part: Canonicity after one operation on the fresh map -/

theorem ble_unbounded (b : LeftBound K) : LeftBound.ble .unbounded b = true := by
  rcases b <;> rfl

theorem cmp_gt_unbounded {l : LeftBound K} (h : l ≠ .unbounded) :
    LeftBound.cmp l .unbounded = .gt := by
  rcases l with _ | a | a
  · exact absurd rfl h
  · rfl
  · rfl

theorem blt_self (l : LeftBound K) : LeftBound.blt l l = false := by
  rw [LeftBound.blt]
  rw [(cmp_eq_iff l l).mpr rfl]
  rfl

theorem blt_unbounded_left {l : LeftBound K} (h : l ≠ .unbounded) :
    LeftBound.blt .unbounded l = true := by
  rcases l with _ | a | a
  · exact absurd rfl h
  · rfl
  · rfl

theorem ltLeft_right_unbounded (b : LeftBound K) :
    RightBound.ltLeft .unbounded b = false := by
  rcases b <;> rfl

theorem ltLeft_adjacent {r : RightBound K} {eb : LeftBound K}
    (h : r.adjacentLeft = some eb) : RightBound.ltLeft r eb = true :=
  (ltLeft_iff r eb).mpr (adjacentLeft_pos_gt h)

theorem ble_eq_false_iff (a b : LeftBound K) :
    LeftBound.ble a b = false ↔ b.pos < a.pos := by
  rw [← Bool.not_eq_true, ble_iff, not_le]

theorem blt_eq_false_iff (a b : LeftBound K) :
    LeftBound.blt a b = false ↔ b.pos ≤ a.pos := by
  rw [← Bool.not_eq_true, blt_iff, not_lt]

theorem ltLeft_eq_false_iff (r : RightBound K) (b : LeftBound K) :
    RightBound.ltLeft r b = false ↔ b.pos ≤ r.pos := by
  rw [← Bool.not_eq_true, ltLeft_iff, not_lt]

theorem adjacentLeft_ne_unbounded {r : RightBound K} {eb : LeftBound K}
    (h : r.adjacentLeft = some eb) : eb ≠ .unbounded := by
  rcases r with a | a | a <;> simp_all [RightBound.adjacentLeft] <;>
    subst h <;> simp

theorem lastLE_newMap (b : LeftBound K) :
    lastLE (newMap : SMap K V) b = some (.unbounded, ∅) := by
  rw [newMap, lastLE, if_pos (ble_unbounded b)]
  rfl

theorem pos_unbounded : (LeftBound.unbounded : LeftBound K).pos = ⊥ := rfl

theorem ble_self (l : LeftBound K) : LeftBound.ble l l = true := by
  rw [LeftBound.ble, (cmp_eq_iff l l).mpr rfl]
  rfl

theorem adjacentLeft_eq_none {r : RightBound K} (h : r.adjacentLeft = none) :
    r = .unbounded := by
  rcases r <;> simp_all [RightBound.adjacentLeft]

theorem pos_bot_lt {l : LeftBound K} (h : l ≠ .unbounded) :
    (⊥ : Pos K) < l.pos := by
  rcases l with _ | a | a
  · exact absurd rfl h
  · exact bot_lt_emb a 0
  · exact bot_lt_emb a 1

theorem pos_le_topPos (l : LeftBound K) : l.pos ≤ topPos := by
  rcases l with _ | a | a
  · exact bot_le
  · exact (emb_lt_topPos a 0).le
  · exact (emb_lt_topPos a 1).le

theorem rightPos_le_topPos (r : RightBound K) : r.pos ≤ topPos := by
  rcases r with a | a | a
  · exact (emb_lt_topPos a (-1)).le
  · exact (emb_lt_topPos a 0).le
  · exact le_rfl

/-- An update on the fresh map that either never changes a set (`f ∅ = ∅`)
or visits no cell (inverted span) hands back the fresh map: the two
boundaries that `ensure_boundary` creates are removed again by the merge
pass. -/
theorem updateSetInSpan_newMap_trivial {l : LeftBound K} {r : RightBound K}
    {f : Finset V → Finset V} (h : f ∅ = ∅ ∨ r.pos < l.pos) :
    updateSetInSpan (newMap : SMap K V) ⟨l, r⟩ f = newMap := by
  have hens := ensureBoundary_eq_some (lastLE_newMap (V := V) l)
  by_cases hl : l = LeftBound.unbounded
  · -- the span starts at the very bottom
    subst hl
    have hf : f ∅ = ∅ := by
      rcases h with h | h
      · exact h
      · exact absurd h (not_lt_bot)
    have hm1 : ensureBoundary (newMap : SMap K V) .unbounded = newMap := by
      rw [hens, if_pos rfl]
    rcases he : r.adjacentLeft with _ | eb
    · rw [updateSetInSpan_eq_none he, hm1]
      have : r = .unbounded := adjacentLeft_eq_none he
      subst this
      simp [newMap, List.takeWhile, List.dropWhile, blt_self, applyFrom,
        ltLeft_right_unbounded, hf, mergeAdjacentLeft, ble_self, List.filter]
    · have hne : eb ≠ .unbounded := adjacentLeft_ne_unbounded he
      have hm2 : ensureBoundary (ensureBoundary (newMap : SMap K V) .unbounded) eb =
          [(.unbounded, ∅), (eb, ∅)] := by
        rw [hm1, ensureBoundary_eq_some (lastLE_newMap eb),
          if_neg (fun hh => hne hh.symm), newMap, insertKey,
          cmp_gt_unbounded hne]
        rfl
      have hlt1 : RightBound.ltLeft r .unbounded = false := by
        rw [ltLeft_eq_false_iff]
        exact bot_le
      rw [updateSetInSpan_eq_some he, hm2]
      simp only [List.takeWhile, List.dropWhile, blt_self, Bool.false_eq_true,
        if_false, applyFrom, hlt1, ltLeft_adjacent he, if_true, hf,
        List.cons_append, List.nil_append]
      have hmerge1 : mergeAdjacentLeft [((LeftBound.unbounded : LeftBound K), (∅ : Finset V)), (eb, ∅)]
          .unbounded = [(.unbounded, ∅), (eb, ∅)] := by
        have hbe : LeftBound.ble eb .unbounded = false := by
          rw [ble_eq_false_iff, pos_unbounded]
          exact pos_bot_lt hne
        simp [mergeAdjacentLeft, List.filter_cons, List.filter_nil, ble_self, hbe]
      rw [hmerge1]
      have hbe2 : LeftBound.ble .unbounded eb = true := ble_unbounded eb
      have hd1 : ¬LeftBound.unbounded = eb := fun hh => hne hh.symm
      simp [mergeAdjacentLeft, List.filter_cons, List.filter_nil, ble_self, hbe2, removeKey,
        hd1, newMap]
  · -- the span starts strictly above the bottom cell
    have hm1 : ensureBoundary (newMap : SMap K V) l =
        [(.unbounded, ∅), (l, ∅)] := by
      rw [hens, if_neg (fun hh => hl hh.symm), newMap, insertKey,
        cmp_gt_unbounded hl]
      rfl
    have hblt : LeftBound.blt .unbounded l = true := blt_unbounded_left hl
    have hubnel : ¬(LeftBound.unbounded : LeftBound K) = l := fun hh => hl hh.symm
    rcases he : r.adjacentLeft with _ | eb
    · -- unbounded right edge
      have hru : r = .unbounded := adjacentLeft_eq_none he
      subst hru
      have hf : f ∅ = ∅ := by
        rcases h with h | h
        · exact h
        · exact absurd h (pos_le_topPos l).not_lt
      rw [updateSetInSpan_eq_none he, hm1]
      simp only [List.takeWhile, List.dropWhile, hblt, if_true, blt_self,
        Bool.false_eq_true, if_false, applyFrom, ltLeft_right_unbounded, hf]
      simp [mergeAdjacentLeft, List.filter_cons, List.filter_nil, ble_unbounded, ble_self,
        removeKey, hubnel, newMap, blt_self]
    · -- bounded right edge
      have hne : eb ≠ .unbounded := adjacentLeft_ne_unbounded he
      have hflt : RightBound.ltLeft r l = true → False → False := fun _ h => h
      have hsuf : ∀ s : Finset V, s = ∅ →
          applyFrom r f [(l, s)] = [(l, (∅ : Finset V))] := by
        intro s hs
        subst hs
        rw [applyFrom]
        by_cases hltl : RightBound.ltLeft r l = true
        · rw [if_pos hltl]
        · rw [if_neg hltl]
          have hf : f ∅ = ∅ := by
            rcases h with h | h
            · exact h
            · have hle : l.pos ≤ r.pos := by
                by_contra hcon
                push_neg at hcon
                exact hltl ((ltLeft_iff r l).mpr hcon)
              exact absurd (lt_of_lt_of_le h hle) (lt_irrefl _)
          rw [hf, applyFrom]
      rcases lt_trichotomy eb.pos l.pos with htri | htri | htri
      · -- the right boundary lands strictly below the left one (inverted span)
        have hm2 : ensureBoundary [((LeftBound.unbounded : LeftBound K), (∅ : Finset V)), (l, ∅)] eb =
            [(.unbounded, ∅), (eb, ∅), (l, ∅)] := by
          have hlast : lastLE [((LeftBound.unbounded : LeftBound K), (∅ : Finset V)), (l, ∅)] eb =
              some (.unbounded, ∅) := by
            have hble : LeftBound.ble l eb = false := by
              rw [ble_eq_false_iff]
              exact htri
            simp [lastLE, ble_unbounded, hble]
          rw [ensureBoundary_eq_some hlast, if_neg (fun hh => hne hh.symm),
            insertKey, cmp_gt_unbounded hne, insertKey,
            (cmp_lt_iff eb l).mpr htri]
        rw [updateSetInSpan_eq_some he, hm1, hm2]
        have hblt2 : LeftBound.blt eb l = true := (blt_iff eb l).mpr htri
        simp only [List.takeWhile, List.dropWhile, hblt, hblt2, if_true,
          blt_self, Bool.false_eq_true, if_false, List.cons_append,
          List.nil_append, hsuf ∅ rfl]
        have hble2 : LeftBound.ble eb l = true := by
          rw [ble_iff]
          exact htri.le
        have hmrg1 : mergeAdjacentLeft
            [((LeftBound.unbounded : LeftBound K), (∅ : Finset V)), (eb, ∅), (l, ∅)] l =
            [(.unbounded, ∅), (eb, ∅)] := by
          have hd1 : ¬eb = l := fun hh => absurd (congrArg LeftBound.pos hh) htri.ne
          simp [mergeAdjacentLeft, List.filter_cons, List.filter_nil, ble_unbounded, hble2, ble_self,
            removeKey, hubnel, hd1]
        rw [hmrg1]
        have hd2 : ¬LeftBound.unbounded = eb := fun hh => hne hh.symm
        simp [mergeAdjacentLeft, List.filter_cons, List.filter_nil, ble_unbounded, ble_self,
          removeKey, hd2, newMap]
      · -- the right boundary coincides with the left one
        have heql : eb = l := pos_inj htri
        subst heql
        have hm2 : ensureBoundary [((LeftBound.unbounded : LeftBound K), (∅ : Finset V)), (eb, ∅)] eb =
            [(.unbounded, ∅), (eb, ∅)] := by
          have hlast : lastLE [((LeftBound.unbounded : LeftBound K), (∅ : Finset V)), (eb, ∅)] eb =
              some (eb, ∅) := by
            simp [lastLE, ble_unbounded, ble_self]
          rw [ensureBoundary_eq_some hlast, if_pos rfl]
        rw [updateSetInSpan_eq_some he, hm1, hm2]
        simp only [List.takeWhile, List.dropWhile, hblt, if_true, blt_self,
          Bool.false_eq_true, if_false, List.cons_append, List.nil_append,
          hsuf ∅ rfl]
        have hmrg1 : mergeAdjacentLeft
            [((LeftBound.unbounded : LeftBound K), (∅ : Finset V)), (eb, ∅)] eb =
            [((LeftBound.unbounded : LeftBound K), (∅ : Finset V))] := by
          simp [mergeAdjacentLeft, List.filter_cons, List.filter_nil, ble_unbounded, ble_self,
            removeKey, hubnel]
        rw [hmrg1]
        simp [mergeAdjacentLeft, List.filter_cons, List.filter_nil, ble_unbounded, newMap]
      · -- the right boundary lands strictly above the left one
        have hm2 : ensureBoundary [((LeftBound.unbounded : LeftBound K), (∅ : Finset V)), (l, ∅)] eb =
            [(.unbounded, ∅), (l, ∅), (eb, ∅)] := by
          have hlast : lastLE [((LeftBound.unbounded : LeftBound K), (∅ : Finset V)), (l, ∅)] eb =
              some (l, ∅) := by
            have hble : LeftBound.ble l eb = true := by
              rw [ble_iff]
              exact htri.le
            simp [lastLE, ble_unbounded, hble]
          rw [ensureBoundary_eq_some hlast,
            if_neg (fun hh => absurd (congrArg LeftBound.pos hh) htri.ne),
            insertKey, cmp_gt_unbounded hne, insertKey,
            (cmp_gt_iff eb l).mpr htri]
          rfl
        rw [updateSetInSpan_eq_some he, hm1, hm2]
        simp only [List.takeWhile, List.dropWhile, hblt, if_true, blt_self,
          Bool.false_eq_true, if_false, List.cons_append, List.nil_append]
        rw [applyFrom]
        by_cases hltl : RightBound.ltLeft r l = true
        · rw [if_pos hltl]
          have hble2 : LeftBound.ble eb l = false := by
            rw [ble_eq_false_iff]
            exact htri
          have hmrg1 : mergeAdjacentLeft
              [((LeftBound.unbounded : LeftBound K), (∅ : Finset V)), (l, ∅), (eb, ∅)] l =
              [(.unbounded, ∅), (eb, ∅)] := by
            have hd1 : ¬eb = l := fun hh => absurd (congrArg LeftBound.pos hh) htri.ne'
            simp [mergeAdjacentLeft, List.filter_cons, List.filter_nil, ble_unbounded, ble_self,
              hble2, removeKey, hubnel, hd1]
          rw [hmrg1]
          have hd2 : ¬LeftBound.unbounded = eb := fun hh => hne hh.symm
          simp [mergeAdjacentLeft, List.filter_cons, List.filter_nil, ble_unbounded, ble_self,
            removeKey, hd2, newMap]
        · have hf : f ∅ = ∅ := by
            rcases h with h | h
            · exact h
            · have hle : l.pos ≤ r.pos := by
                by_contra hcon
                push_neg at hcon
                exact hltl ((ltLeft_iff r l).mpr hcon)
              exact absurd (lt_of_lt_of_le h hle) (lt_irrefl _)
          rw [if_neg hltl, hf, applyFrom, if_pos (ltLeft_adjacent he)]
          have hble2 : LeftBound.ble eb l = false := by
            rw [ble_eq_false_iff]
            exact htri
          have hmrg1 : mergeAdjacentLeft
              [((LeftBound.unbounded : LeftBound K), (∅ : Finset V)), (l, ∅), (eb, ∅)] l =
              [(.unbounded, ∅), (eb, ∅)] := by
            have hd1 : ¬eb = l := fun hh => absurd (congrArg LeftBound.pos hh) htri.ne'
            simp [mergeAdjacentLeft, List.filter_cons, List.filter_nil, ble_unbounded, ble_self,
              hble2, removeKey, hubnel, hd1]
          rw [hmrg1]
          have hd2 : ¬LeftBound.unbounded = eb := fun hh => hne hh.symm
          simp [mergeAdjacentLeft, List.filter_cons, List.filter_nil, ble_unbounded, ble_self,
            removeKey, hd2, newMap]

/-- Inserting a value over a non-inverted span into the fresh map yields a
canonical partition: at most three cells whose value sets alternate. -/
theorem insertSpan_newMap_canonical {l : LeftBound K} {r : RightBound K}
    (v : V) (hne : ¬ r.pos < l.pos) :
    canonicalB (insertSpan (newMap : SMap K V) ⟨l, r⟩ v) = true := by
  rw [insertSpan]
  have hens := ensureBoundary_eq_some (lastLE_newMap (V := V) l)
  have hnev : ¬(insert v ∅ : Finset V) = ∅ := Finset.insert_ne_empty v ∅
  have hnev2 : ¬(∅ : Finset V) = insert v ∅ := fun hh => hnev hh.symm
  have hsing : ¬({v} : Finset V) = ∅ := Finset.singleton_ne_empty v
  have hsing2 : ¬(∅ : Finset V) = {v} := fun hh => hsing hh.symm
  have hltl : RightBound.ltLeft r l = false := by
    rw [ltLeft_eq_false_iff]
    exact not_lt.mp hne
  by_cases hl : l = LeftBound.unbounded
  · subst hl
    have hm1 : ensureBoundary (newMap : SMap K V) .unbounded = newMap := by
      rw [hens, if_pos rfl]
    rcases he : r.adjacentLeft with _ | eb
    · rw [updateSetInSpan_eq_none he, hm1]
      simp [newMap, List.takeWhile, List.dropWhile, blt_self, applyFrom,
        hltl, mergeAdjacentLeft, List.filter_cons, List.filter_nil, ble_self,
        canonicalB]
    · have hneb : eb ≠ .unbounded := adjacentLeft_ne_unbounded he
      have hm2 : ensureBoundary (ensureBoundary (newMap : SMap K V) .unbounded) eb =
          [(.unbounded, ∅), (eb, ∅)] := by
        rw [hm1, ensureBoundary_eq_some (lastLE_newMap eb),
          if_neg (fun hh => hneb hh.symm), newMap, insertKey,
          cmp_gt_unbounded hneb]
        rfl
      rw [updateSetInSpan_eq_some he, hm2]
      have hbe : LeftBound.ble eb .unbounded = false := by
        rw [ble_eq_false_iff, pos_unbounded]
        exact pos_bot_lt hneb
      simp only [List.takeWhile, List.dropWhile, blt_self, Bool.false_eq_true,
        if_false, applyFrom, hltl, ltLeft_adjacent he, if_true,
        List.cons_append, List.nil_append]
      have hmrg1 : mergeAdjacentLeft
          [((LeftBound.unbounded : LeftBound K), insert v ∅), (eb, (∅ : Finset V))]
          .unbounded =
          [(.unbounded, insert v ∅), (eb, ∅)] := by
        simp [mergeAdjacentLeft, List.filter_cons, List.filter_nil, ble_self, hbe]
      rw [hmrg1]
      have hmrg2 : mergeAdjacentLeft
          [((LeftBound.unbounded : LeftBound K), insert v ∅), (eb, (∅ : Finset V))] eb =
          [(.unbounded, insert v ∅), (eb, ∅)] := by
        simp [mergeAdjacentLeft, List.filter_cons, List.filter_nil, ble_self,
          ble_unbounded, hnev2, hsing, hsing2]
      rw [hmrg2]
      simp [canonicalB, hnev2, hsing, hsing2]
  · have hm1 : ensureBoundary (newMap : SMap K V) l =
        [(.unbounded, ∅), (l, ∅)] := by
      rw [hens, if_neg (fun hh => hl hh.symm), newMap, insertKey,
        cmp_gt_unbounded hl]
      rfl
    have hblt : LeftBound.blt .unbounded l = true := blt_unbounded_left hl
    rcases he : r.adjacentLeft with _ | eb
    · rw [updateSetInSpan_eq_none he, hm1]
      simp only [List.takeWhile, List.dropWhile, hblt, if_true, blt_self,
        Bool.false_eq_true, if_false, applyFrom, hltl, List.cons_append,
        List.nil_append]
      have hmrg1 : mergeAdjacentLeft
          [((LeftBound.unbounded : LeftBound K), (∅ : Finset V)), (l, insert v ∅)] l =
          [(.unbounded, ∅), (l, insert v ∅)] := by
        simp [mergeAdjacentLeft, List.filter_cons, List.filter_nil, ble_self,
          ble_unbounded, hnev, hsing, hsing2]
      rw [hmrg1]
      simp [canonicalB, hnev, hsing, hsing2]
    · have hneb : eb ≠ .unbounded := adjacentLeft_ne_unbounded he
      have htri : l.pos < eb.pos :=
        lt_of_le_of_lt (not_lt.mp hne) (adjacentLeft_pos_gt he)
      have hm2 : ensureBoundary [((LeftBound.unbounded : LeftBound K), (∅ : Finset V)), (l, ∅)] eb =
          [(.unbounded, ∅), (l, ∅), (eb, ∅)] := by
        have hlast : lastLE [((LeftBound.unbounded : LeftBound K), (∅ : Finset V)), (l, ∅)] eb =
            some (l, ∅) := by
          have hble : LeftBound.ble l eb = true := by
            rw [ble_iff]
            exact htri.le
          simp [lastLE, ble_unbounded, hble]
        rw [ensureBoundary_eq_some hlast,
          if_neg (fun hh => absurd (congrArg LeftBound.pos hh) htri.ne),
          insertKey, cmp_gt_unbounded hneb, insertKey,
          (cmp_gt_iff eb l).mpr htri]
        rfl
      rw [updateSetInSpan_eq_some he, hm1, hm2]
      simp only [List.takeWhile, List.dropWhile, hblt, if_true, blt_self,
        Bool.false_eq_true, if_false, applyFrom, hltl, ltLeft_adjacent he,
        List.cons_append, List.nil_append]
      have hble2 : LeftBound.ble eb l = false := by
        rw [ble_eq_false_iff]
        exact htri
      have hmrg1 : mergeAdjacentLeft
          [((LeftBound.unbounded : LeftBound K), (∅ : Finset V)), (l, insert v ∅), (eb, ∅)] l =
          [(.unbounded, ∅), (l, insert v ∅), (eb, ∅)] := by
        simp [mergeAdjacentLeft, List.filter_cons, List.filter_nil, ble_self,
          ble_unbounded, hble2, hnev, hsing, hsing2]
      rw [hmrg1]
      have hmrg2 : mergeAdjacentLeft
          [((LeftBound.unbounded : LeftBound K), (∅ : Finset V)), (l, insert v ∅), (eb, ∅)] eb =
          [(.unbounded, ∅), (l, insert v ∅), (eb, ∅)] := by
        have hble3 : LeftBound.ble l eb = true := by
          rw [ble_iff]
          exact htri.le
        simp [mergeAdjacentLeft, List.filter_cons, List.filter_nil, ble_self,
          ble_unbounded, hble3, hnev2, hsing, hsing2]
      rw [hmrg2]
      simp [canonicalB, hnev, hnev2, hsing, hsing2]

/-! Part: Remaining helper lemmas -/

theorem gtRight_eq_false_iff (l : LeftBound K) (r : RightBound K) :
    LeftBound.gtRight l r = false ↔ l.pos ≤ r.pos := by
  rw [← Bool.not_eq_true, gtRight_iff, not_lt]

theorem applyFrom_keys (r : RightBound K) (f : Finset V → Finset V)
    (l : SMap K V) : (applyFrom r f l).map Prod.fst = l.map Prod.fst := by
  induction l with
  | nil => rfl
  | cons p rest ih =>
    rw [applyFrom]
    by_cases hlt : RightBound.ltLeft r p.1 = true
    · rw [if_pos hlt]
    · rw [if_neg hlt, List.map_cons, List.map_cons, ih]

theorem mergeAdjacentLeft_subset_any {m : SMap K V} {b : LeftBound K} :
    ∀ q ∈ mergeAdjacentLeft m b, q ∈ m := by
  intro q hq
  rcases hrev : (m.filter (fun p => LeftBound.ble p.1 b)).reverse with _ | ⟨rp, tl⟩
  · simp only [mergeAdjacentLeft] at hq
    rw [hrev] at hq
    exact hq
  rcases tl with _ | ⟨lp, tl2⟩
  · simp only [mergeAdjacentLeft] at hq
    rw [hrev] at hq
    exact hq
  · simp only [mergeAdjacentLeft] at hq
    rw [hrev] at hq
    have hq2 : q ∈ (if lp.2 = rp.2 then removeKey m rp.1 else m) := hq
    split_ifs at hq2 with hset
    · exact (removeKey_mem.mp hq2).1
    · exact hq2

theorem canonicalB_runOps_short (ops : List (Op K V)) (hlen : ops.length ≤ 1) :
    canonicalB (runOps ops) = true := by
  rcases ops with _ | ⟨op, rest⟩
  · rfl
  rcases rest with _ | ⟨op2, r2⟩
  · rw [runOps, List.foldl_cons, List.foldl_nil]
    rcases op with ⟨⟨l, r⟩, v⟩ | ⟨⟨l, r⟩, v⟩
    · rw [applyOp]
      by_cases hne : r.pos < l.pos
      · rw [insertSpan, updateSetInSpan_newMap_trivial (Or.inr hne)]
        rfl
      · exact insertSpan_newMap_canonical v hne
    · rw [applyOp, removeSpan,
        updateSetInSpan_newMap_trivial (Or.inl (Finset.erase_empty v))]
      rfl
  · simp at hlen

theorem pcmp_characterization_aux (A B : Span K)
    (hA : A.left.gtRight A.right = false) (hB : B.left.gtRight B.right = false) :
    (Span.pcmp A B = some Ordering.lt ↔ RightBound.ltLeft A.right B.left = true) ∧
    (Span.pcmp A B = some Ordering.gt ↔ LeftBound.gtRight A.left B.right = true) ∧
    (Span.pcmp A B = some Ordering.eq ↔ A = B) ∧
    (Span.pcmp A B = none ↔
      (RightBound.ltLeft A.right B.left = false ∧
       LeftBound.gtRight A.left B.right = false ∧ A ≠ B)) := by
  have hposA := (gtRight_eq_false_iff _ _).mp hA
  have hposB := (gtRight_eq_false_iff _ _).mp hB
  rw [Span.pcmp]
  by_cases h1 : RightBound.ltLeft A.right B.left = true
  · rw [if_pos h1]
    have hr := (ltLeft_iff _ _).mp h1
    have hx : ¬ LeftBound.gtRight A.left B.right = true := by
      rw [gtRight_iff]
      intro hcon
      exact absurd (((hposA.trans_lt hr).trans_le hposB).trans hcon) (lt_irrefl _)
    have hAB : A ≠ B := by
      intro hh
      subst hh
      exact absurd (hposA.trans_lt hr) (lt_irrefl _)
    simp [h1, hx, hAB]
  · rw [if_neg h1]
    by_cases h2 : LeftBound.gtRight A.left B.right = true
    · rw [if_pos h2]
      have hr := (gtRight_iff _ _).mp h2
      have hAB : A ≠ B := by
        intro hh
        subst hh
        exact absurd hr hposB.not_lt
      simp [h1, h2, hAB]
    · rw [if_neg h2]
      by_cases h3 : A = B
      · rw [if_pos h3]
        subst h3
        refine ⟨by simp [h1], by simp [h2], by simp, by simp⟩
      · rw [if_neg h3]
        refine ⟨by simp [h1], by simp [h2], by simp [h3], ?_⟩
        simp only [true_iff, eq_self_iff_true]
        refine ⟨?_, ?_, h3⟩
        · rw [← Bool.not_eq_true]
          exact h1
        · rw [← Bool.not_eq_true]
          exact h2

/-! Part: Claim theorems, counterexamples and witnesses -/

/-- C4: cross comparison of a left bound against a right bound at the same
underlying value: equal only when both are inclusive; an exclusive left
bound is greater than both right bounds at the value; an inclusive left
bound is greater than an exclusive right bound at the value. -/
theorem claim4_cross_same_value (v : K) :
    LeftBound.crossCmp (.included v) (.included v) = some Ordering.eq ∧
    LeftBound.crossCmp (.excluded v) (.included v) = some Ordering.gt ∧
    LeftBound.crossCmp (.excluded v) (.excluded v) = some Ordering.gt ∧
    LeftBound.crossCmp (.included v) (.excluded v) = some Ordering.gt := by
  refine ⟨?_, ?_, ?_, ?_⟩ <;>
    simp [LeftBound.crossCmp, compare_eq_iff_eq]

/-- C5 (amended): for well-formed spans (left edge not after the right edge
under the cross ordering) the span comparison is `Some(Less)` iff
`A.right < B.left`, `Some(Greater)` iff `A.left > B.right`, `Some(Equal)`
iff the edges match exactly, and `None` in every other case. -/
theorem claim5_pcmp_characterization (A B : Span K)
    (hA : A.left.gtRight A.right = false) (hB : B.left.gtRight B.right = false) :
    (Span.pcmp A B = some Ordering.lt ↔ RightBound.ltLeft A.right B.left = true) ∧
    (Span.pcmp A B = some Ordering.gt ↔ LeftBound.gtRight A.left B.right = true) ∧
    (Span.pcmp A B = some Ordering.eq ↔ A = B) ∧
    (Span.pcmp A B = none ↔
      (RightBound.ltLeft A.right B.left = false ∧
       LeftBound.gtRight A.left B.right = false ∧ A ≠ B)) :=
  pcmp_characterization_aux A B hA hB

/-- Witness for C5 at two concrete well-formed integer spans. -/
theorem claim5_witness :
    (Span.pcmp (K := Int) ⟨.included 1, .excluded 3⟩ ⟨.included 4, .excluded 6⟩ =
        some Ordering.lt ↔
      RightBound.ltLeft (RightBound.excluded (3 : Int)) (.included 4) = true) ∧
    (Span.pcmp (K := Int) ⟨.included 1, .excluded 3⟩ ⟨.included 4, .excluded 6⟩ =
        some Ordering.gt ↔
      LeftBound.gtRight (LeftBound.included (1 : Int)) (.excluded 6) = true) ∧
    (Span.pcmp (K := Int) ⟨.included 1, .excluded 3⟩ ⟨.included 4, .excluded 6⟩ =
        some Ordering.eq ↔
      (⟨.included 1, .excluded 3⟩ : Span Int) = ⟨.included 4, .excluded 6⟩) ∧
    (Span.pcmp (K := Int) ⟨.included 1, .excluded 3⟩ ⟨.included 4, .excluded 6⟩ =
        none ↔
      (RightBound.ltLeft (RightBound.excluded (3 : Int)) (.included 4) = false ∧
       LeftBound.gtRight (LeftBound.included (1 : Int)) (.excluded 6) = false ∧
       (⟨.included 1, .excluded 3⟩ : Span Int) ≠ ⟨.included 4, .excluded 6⟩)) :=
  claim5_pcmp_characterization ⟨.included 1, .excluded 3⟩ ⟨.included 4, .excluded 6⟩
    (by decide) (by decide)

/-- C5 counterexample: an inverted span compared with itself has exactly
matching edges yet `partial_cmp` yields `Some(Less)`, not `Some(Equal)` —
so the claimed `Some(Equal) ↔ edges match` and `Some(Greater) ↔
A.left > B.right` equivalences fail as stated. -/
theorem claim5_counterexample :
    Span.pcmp (K := Int) ⟨.included 5, .excluded 1⟩ ⟨.included 5, .excluded 1⟩ =
        some Ordering.lt ∧
    LeftBound.gtRight (LeftBound.included (5 : Int)) (.excluded 1) = true ∧
    Span.pcmp (K := Int) ⟨.included 5, .excluded 1⟩ ⟨.included 5, .excluded 1⟩ ≠
        some Ordering.eq ∧
    Span.pcmp (K := Int) ⟨.included 5, .excluded 1⟩ ⟨.included 5, .excluded 1⟩ ≠
        some Ordering.gt := by
  decide

/-- C2 (amended): after at most one operation on a fresh map — including
operations over empty or inverted ranges — no two adjacent cells hold
equal value sets. -/
theorem claim2_canonical_after_one_op (ops : List (Op K V))
    (hlen : ops.length ≤ 1) : canonicalB (runOps ops) = true :=
  canonicalB_runOps_short ops hlen

/-- Witness for C2 (amended) at a single concrete operation. -/
theorem claim2_witness :
    canonicalB (runOps (K := Int) (V := Int)
      [Op.ins ⟨.included 0, .included 5⟩ 3]) = true :=
  claim2_canonical_after_one_op [Op.ins ⟨.included 0, .included 5⟩ 3] (by decide)

/-- C2 counterexample: after two overlapping inserts of the same value the
cells keyed `Included 0` and `Included 1` both hold `{1}`, so the
canonical-minimality invariant fails for longer operation sequences. -/
theorem claim2_counterexample :
    canonicalB (runOps (K := Int) (V := Int)
      [Op.ins ⟨.included 1, .included 5⟩ 1,
       Op.ins ⟨.included 0, .included 10⟩ 1]) = false ∧
    runOps (K := Int) (V := Int)
      [Op.ins ⟨.included 1, .included 5⟩ 1,
       Op.ins ⟨.included 0, .included 10⟩ 1] =
      [(.unbounded, ∅), (.included 0, {1}), (.included 1, {1}),
       (.excluded 5, {1}), (.excluded 10, ∅)] := by
  decide

/-- C6: inserting `[1,5] → 10` then `(5,10] → 10` on a fresh map yields
exactly the three boundary keys `Unbounded`, `Included 1`, `Excluded 10`,
with the single cell starting at `Included 1` holding `{10}`. -/
theorem claim6_adjacent_merge_scenario :
    runOps (K := Int) (V := Int)
      [Op.ins ⟨.included 1, .included 5⟩ 10,
       Op.ins ⟨.excluded 5, .included 10⟩ 10] =
      [(.unbounded, ∅), (.included 1, {10}), (.excluded 10, ∅)] := by
  decide

/-- C9: removing `([1,5], 10)` from a freshly constructed map is a no-op:
the result is exactly the one-cell map `Unbounded ↦ ∅` produced by `new`. -/
theorem claim9_remove_on_fresh_map :
    removeSpan (newMap : SMap Int Int) ⟨.included 1, .included 5⟩ 10 = newMap ∧
    (newMap : SMap Int Int) = [(.unbounded, ∅)] := by
  decide

/-- C7 counterexample: on a reachable map, inserting the empty span `[7,7)`
with value 1 twice gives a different internal map than inserting it once —
the second call's merge pass removes a further redundant boundary. -/
theorem claim7_counterexample :
    insertSpan (insertSpan (runOps (K := Int) (V := Int)
        [Op.ins ⟨.included 1, .included 5⟩ 1,
         Op.ins ⟨.included 0, .included 10⟩ 1])
        ⟨.included 7, .excluded 7⟩ 1)
      ⟨.included 7, .excluded 7⟩ 1 ≠
    insertSpan (runOps (K := Int) (V := Int)
        [Op.ins ⟨.included 1, .included 5⟩ 1,
         Op.ins ⟨.included 0, .included 10⟩ 1])
      ⟨.included 7, .excluded 7⟩ 1 := by
  decide

/-- C10 counterexample: the value 2 is absent from every cell of this
reachable map, yet removing it over `[1,20]` changes the map structurally
(the boundary `Included 1`, redundant after an earlier merge failure, is
removed). -/
theorem claim10_counterexample :
    ((runOps (K := Int) (V := Int)
        [Op.ins ⟨.included 1, .included 5⟩ 1,
         Op.ins ⟨.included 0, .included 10⟩ 1]).all
      (fun p => decide ((2 : Int) ∉ p.2)) = true) ∧
    removeSpan (runOps (K := Int) (V := Int)
        [Op.ins ⟨.included 1, .included 5⟩ 1,
         Op.ins ⟨.included 0, .included 10⟩ 1])
      ⟨.included 1, .included 20⟩ 2 ≠
    runOps (K := Int) (V := Int)
      [Op.ins ⟨.included 1, .included 5⟩ 1,
       Op.ins ⟨.included 0, .included 10⟩ 1] := by
  decide

/-- Witness for C10 (amended): removing an absent value over `[1,5]` on the
fresh map leaves `get` at 3 unchanged. -/
theorem claim10_witness :
    getValues (removeSpan (runOps ([] : List (Op Int Int)))
        ⟨.included 1, .included 5⟩ 10) 3 =
      getValues (runOps ([] : List (Op Int Int))) 3 :=
  remove_absent_getValues [] ⟨.included 1, .included 5⟩ 10
    (fun k hk => Finset.not_mem_empty 10) 3

/-- C8: `update_set_in_span` computes the right split point via
`RightBound::adjacent_left`, which maps `Included v` to
`Some(Excluded v)`, `Excluded v` to `Some(Included v)` and `Unbounded` to
`None`; with an unbounded right edge no right boundary is created — every
key of the result is either `span.left` or a key of the input map. -/
theorem claim8_adjacent_left_split (w : K) (m : SMap K V) (l : LeftBound K)
    (f : Finset V → Finset V) :
    RightBound.adjacentLeft (RightBound.included w) = some (LeftBound.excluded w) ∧
    RightBound.adjacentLeft (RightBound.excluded w) = some (LeftBound.included w) ∧
    RightBound.adjacentLeft (RightBound.unbounded : RightBound K) = none ∧
    (updateSetInSpan m ⟨l, RightBound.unbounded⟩ f).map Prod.fst ⊆
      l :: m.map Prod.fst := by
  refine ⟨rfl, rfl, rfl, ?_⟩
  intro x hx
  have he0 : (Span.mk l (RightBound.unbounded : RightBound K)).right.adjacentLeft = none := rfl
  rw [updateSetInSpan_eq_none he0] at hx
  obtain ⟨q, hq, rfl⟩ := List.mem_map.mp hx
  have hq3 := mergeAdjacentLeft_subset_any q hq
  have hx3 : q.1 ∈ (((ensureBoundary m l).takeWhile fun p => LeftBound.blt p.1 l) ++
      applyFrom RightBound.unbounded f
        ((ensureBoundary m l).dropWhile fun p => LeftBound.blt p.1 l)).map Prod.fst :=
    List.mem_map_of_mem Prod.fst hq3
  rw [List.map_append, applyFrom_keys, ← List.map_append,
    List.takeWhile_append_dropWhile] at hx3
  obtain ⟨q2, hq2, heq⟩ := List.mem_map.mp hx3
  rcases ensureBoundary_mem_fwd hq2 with hkey | hmem
  · have hql : q.1 = l := by
      rw [← heq]
      exact hkey
    rw [hql]
    exact List.mem_cons_self _ _
  · refine List.mem_cons_of_mem _ ?_
    rw [← heq]
    exact List.mem_map_of_mem Prod.fst hmem

/-- Witness for C8 at concrete arguments. -/
theorem claim8_witness :
    RightBound.adjacentLeft (RightBound.included (5 : Int)) =
        some (LeftBound.excluded 5) ∧
    RightBound.adjacentLeft (RightBound.excluded (5 : Int)) =
        some (LeftBound.included 5) ∧
    RightBound.adjacentLeft (RightBound.unbounded : RightBound Int) = none ∧
    (updateSetInSpan (newMap : SMap Int Int) ⟨.included 3, RightBound.unbounded⟩
        id).map Prod.fst ⊆
      LeftBound.included 3 :: (newMap : SMap Int Int).map Prod.fst :=
  claim8_adjacent_left_split 5 newMap (.included 3) id

end SpanMap
